import Mathlib

/-!
# phonegap-build: the remote build workflow

A shallow embedding of `lib/phonegap-build/build/remote.js`: the build function
(`module.exports`), `unlockKey` and `waitForComplete`.

The JavaScript is written in continuation-passing style against four
collaborators (`zip`, `config.local`, `api.put`, `api.get`) and `setTimeout`.
Here every callback body is a state transformer on `St`; a collaborator call
records an event in the trace and leaves a `Task` (the callback closure,
defunctionalised) in the list of outstanding replies.  A schedule (a list of
numbers) says which outstanding reply is delivered next, so that every
interleaving of the replies is a run.  A collaborator that calls back before it
returns is the schedule that delivers its reply first; the one call after which
the caller still has code to run, the `api.put` inside `unlockKey`, has its own
flag `unlockNow` for that.  What a collaborator replies is fixed by a `World`.
-/

namespace PhonegapBuild

/-! ## Values -/

/-- The JavaScript values the checks `!x` and the string concatenations are applied to. -/
inductive JsVal where
  | undefined
  | null
  | num (n : Int)
  | str (s : String)
  deriving DecidableEq, Repr

/-- Truthiness, as tested by `!x`. -/
def JsVal.truthy : JsVal → Bool
  | .undefined => false
  | .null => false
  | .num n => n != 0
  | .str s => s != ""

/-- String conversion, as done by `'...' + x`. -/
def JsVal.toStr : JsVal → String
  | .undefined => "undefined"
  | .null => "null"
  | .num n => toString n
  | .str s => s

/-- A property read `o[k]` converted to a string: an absent property reads `undefined`. -/
def strOf : Option String → String
  | none => "undefined"
  | some s => s

/-- An error value; `new Error(msg)` is `⟨msg⟩`. -/
structure Err where
  message : String
  deriving DecidableEq, Repr

/-- A credential object, as held by `options.keys`: the key id and the rest of the
credential. -/
structure Credential where
  id : JsVal
  secret : String
  deriving DecidableEq, Repr

/-- The response body of a key-unlock put. -/
structure KeyResp where
  locked : Bool
  link : String
  deriving DecidableEq, Repr

/-- The response body of a status query: `data.status` and `data.error`. -/
structure AppRecord where
  status : List (String × String)
  error : List (String × String)
  deriving DecidableEq, Repr

/-- The `options` object of the build function and of `unlockKey` (one object: the
build function passes its own `options` on as `_opts`). `keys` maps a platform name to
the address of a credential object and `creds` gives the object at an address, so that two
names can hold the same object. -/
structure Options where
  api : Bool
  emitter : Bool
  platforms : Option (List String)
  keys : Option (List (String × Nat))
  creds : Nat → Credential
  platform : JsVal
  id : JsVal
  data : Option Credential

/-- The `options` object of `waitForComplete` (`buildData` in the build function). -/
structure PollOptions where
  id : JsVal
  api : Bool
  platforms : Option (List String)
  deriving DecidableEq, Repr

/-- The `form` of a put: a file to upload or key credentials. -/
inductive Form where
  | file (filename : String)
  | data (cred : Credential)
  deriving DecidableEq, Repr

/-- The second argument of the completion callback. -/
inductive Data where
  | undefined
  | app (r : AppRecord)
  | key (r : KeyResp)
  deriving DecidableEq, Repr

/-- What a run does that can be seen from outside, in order. -/
inductive Event where
  | log (msg : String)
  | compress (www build : String)
  | configLoad
  | put (url : String) (form : Form)
  | get (url : String)
  | cleanup (filename : String)
  | setTimeout (ms : Nat)
  | callback (e : Option Err) (data : Data)
  deriving DecidableEq, Repr

/-- Who receives what `unlockKey` reports: the caller's callback, or the function
the build function passes (lines 74-78). -/
inductive KeyCb where
  | caller
  | build
  deriving DecidableEq, Repr

/-- Who receives what `waitForComplete` reports: the caller's callback, or the
function the build function passes (lines 100-107). -/
inductive PollCb where
  | caller
  | build
  deriving DecidableEq, Repr

/-- A reply that is outstanding, with the variables its callback closes over. -/
inductive Task where
  | compress
  | configLoad (filename : String)
  | unlock (k : Nat) (cb : KeyCb)
  | upload (filename : String) (id : JsVal)
  | get (k : Nat) (o : PollOptions) (cb : PollCb)
  | timer (o : PollOptions) (cb : PollCb)
  deriving DecidableEq, Repr

/-- The state of a run: the request object (mutable, shared), the events so far,
the outstanding replies, how many unlock puts and status queries were issued, and
the message of the exception that ended the run, if one was thrown. -/
structure St where
  opts : Option Options
  trace : List Event
  pending : List Task
  unlocks : Nat
  gets : Nat
  thrown : Option String

/-- What the collaborators do: the working directory, the result of each call, and
whether the `k`-th unlock put calls back before it returns. -/
structure World where
  cwd : String
  compress : Except Err String
  config : Except Err JsVal
  unlockNow : Nat → Bool
  unlock : Nat → Except Err KeyResp
  upload : Option Err
  get : Nat → Except Err AppRecord

/-! ## The program -/

/-- The state before anything has run. -/
def St.init (opts : Option Options) : St :=
  { opts := opts, trace := [], pending := [], unlocks := 0, gets := 0, thrown := none }

/-- Append an event to the trace. -/
def St.emit (st : St) (e : Event) : St :=
  { st with trace := st.trace ++ [e] }

/-- Leave a reply outstanding. -/
def St.defer (st : St) (t : Task) : St :=
  { st with pending := st.pending ++ [t] }

/-- Throw: `throw new Error(msg)`. -/
def St.throw (st : St) (msg : String) : St :=
  { st with thrown := some msg }

/-- Join of two path segments (`path.join` on a normalised directory). -/
def pathJoin (a b : String) : String :=
  a ++ "/" ++ b

/-- The callback `waitForComplete` is given, applied to `(e, data)`. For the build
function it is lines 100-107: `callback(e)` on an error, else `callback(null, data)`. -/
def pollCallback (cb : PollCb) (e : Option Err) (data : Data) (st : St) : St :=
  match cb with
  | .caller => st.emit (.callback e data)
  | .build =>
    match e with
    | some e => st.emit (.callback (some e) .undefined)
    | none => st.emit (.callback none data)

/-- The callback `unlockKey` is given, applied to `(e, data)`. For the build function
it is lines 74-78: `if (e) callback(e, data)`. -/
def keyCallback (cb : KeyCb) (e : Option Err) (data : Data) (st : St) : St :=
  match cb with
  | .caller => st.emit (.callback e data)
  | .build =>
    match e with
    | some e => st.emit (.callback (some e) data)
    | none => st

/-- Lines 194-218: the callback of `api.get` in `waitForComplete`. -/
def waitForComplete.onGet (o : PollOptions) (cb : PollCb) (r : Except Err AppRecord)
    (st : St) : St :=
  match r with
  | .error e => pollCallback cb (some e) .undefined st
  | .ok data =>
    let platform := (o.platforms.getD []).head?
    let status := data.status.lookup (strOf platform)
    if status = some "error" then
      pollCallback cb
        (some ⟨"error occurred while building the " ++ strOf platform ++ " app: "
          ++ strOf (data.error.lookup (strOf platform))⟩) .undefined st
    else if status = some "complete" then
      pollCallback cb none (.app data) st
    else
      (st.emit (.setTimeout 5000)).defer (.timer o cb)

/-- Lines 182-194: `waitForComplete` up to the call of `api.get`. -/
def waitForComplete (options : Option PollOptions) (callback : Option PollCb) (st : St) : St :=
  match options with
  | none => st.throw "missing options parameter"
  | some o =>
    if !o.api then st.throw "missing options.api parameter"
    else if !o.id.truthy then st.throw "missing options.id parameter"
    else if o.platforms.isNone then st.throw "missing options.platforms parameter"
    else
      match callback with
      | none => st.throw "missing callback parameter"
      | some cb =>
        let url := "/apps/" ++ o.id.toStr
        { (st.emit (.get url)).defer (.get st.gets o cb) with gets := st.gets + 1 }

/-- Lines 152-163: the callback of `api.put` in `unlockKey`. `options.platform` is
read from the request object when the reply arrives. -/
def unlockKey.onPut (cb : KeyCb) (r : Except Err KeyResp) (st : St) : St :=
  match r with
  | .error e => keyCallback cb (some e) .undefined st
  | .ok data =>
    let platform :=
      match st.opts with
      | none => "undefined"
      | some options => options.platform.toStr
    let st :=
      if data.locked then
        keyCallback cb
          (some ⟨"error occurred while unlocking the " ++ platform ++ " key: " ++ data.link⟩)
          .undefined st
      else st
    keyCallback cb none (.key data) st

/-- Line 152: the call `options.api.put(url, headers, ...)` of `unlockKey`. The put is
issued; its callback runs at once when the collaborator calls back before it returns,
and the reply is left outstanding otherwise. -/
def unlockKey.put (w : World) (url : String) (data : Credential) (cb : KeyCb) (st : St) : St :=
  let k := st.unlocks
  let st := { st.emit (.put url (.data data)) with unlocks := k + 1 }
  if w.unlockNow k then unlockKey.onPut cb (w.unlock k) st
  else st.defer (.unlock k cb)

/-- Lines 130-152: `unlockKey` on the request object of the state. -/
def unlockKey (w : World) (callback : Option KeyCb) (st : St) : St :=
  match st.opts with
  | none => st.throw "missing options parameter"
  | some options =>
    if !options.api then st.throw "missing options.api parameter"
    else if !options.emitter then st.throw "missing options.emitter parameter"
    else if !options.platform.truthy then st.throw "missing options.platform parameter"
    else if !options.id.truthy then st.throw "missing options.id parameter"
    else
      match options.data with
      | none => st.throw "missing options.data parameter"
      | some data =>
        match callback with
        | none => st.throw "missing callback parameter"
        | some cb =>
          let url := "/keys/" ++ options.platform.toStr ++ "/" ++ options.id.toStr
          let st := st.emit
            (.log ("unlocking the " ++ options.platform.toStr ++ " key (" ++ url ++ ")..."))
          unlockKey.put w url data cb st

/-- Remove the `id` of the credential object at address `a` (`delete _opts.data.id`). -/
def deleteId (a : Nat) (creds : Nat → Credential) : Nat → Credential :=
  fun b => if b = a then { creds b with id := .undefined } else creds b

/-- Lines 69-73: the assignments at the head of the loop body. `options.data` is the
credential object under `key`, `options.id` its id, which is then removed from the object
(and so from `options.data`). Reading `.id` of a credential that is not there throws a
`TypeError`. -/
def build.assignKey (key : String) (st : St) : St :=
  match st.opts with
  | none => st.throw "TypeError"
  | some options =>
    match (options.keys.getD []).lookup key with
    | none => st.throw "TypeError"
    | some a =>
      let cred := options.creds a
      let options : Options := { options with platform := JsVal.str key }
      let options : Options := { options with data := some { cred with id := JsVal.undefined } }
      let options : Options := { options with id := cred.id }
      let options : Options := { options with creds := deleteId a options.creds }
      { st with opts := some options }

/-- Lines 68-79: the loop over `Object.keys(options.keys)`. An exception ends it. -/
def build.forEachKey (w : World) : List String → St → St
  | [], st => st
  | key :: rest, st =>
    let st := build.assignKey key st
    if st.thrown.isSome then st
    else
      let st := unlockKey w (some .build) st
      if st.thrown.isSome then st else build.forEachKey w rest st

/-- Lines 84-108: the callback of the upload put. -/
def build.onUpload (filename : String) (id : JsVal) (e : Option Err) (st : St) : St :=
  let st := st.emit (.cleanup filename)
  match e with
  | some e => st.emit (.callback (some e) .undefined)
  | none =>
    let buildData : Option PollOptions :=
      st.opts.map fun options => { id := id, api := options.api, platforms := options.platforms }
    let st := st.emit (.log "building the app...")
    waitForComplete buildData (some .build) st

/-- Lines 67-80: `if (options.keys)`, the loop over the keys. -/
def build.unlockKeys (w : World) (st : St) : St :=
  match st.opts.bind Options.keys with
  | none => st
  | some keys => build.forEachKey w (keys.map Prod.fst) st

/-- Lines 50-84: the callback of `config.local.load`; `id` is `data.phonegap.id`. -/
def build.onConfig (w : World) (filename : String) (r : Except Err JsVal) (st : St) : St :=
  match r with
  | .error e => st.emit (.callback (some e) .undefined)
  | .ok id =>
    let url := "/apps/" ++ id.toStr
    let st := build.unlockKeys w st
    if st.thrown.isSome then st
    else
      let st := st.emit (.log "uploading the app...")
      (st.emit (.put url (.file filename))).defer (.upload filename id)

/-- Lines 43-50: the callback of `zip.compress`. -/
def build.onCompress (r : Except Err String) (st : St) : St :=
  match r with
  | .error e => st.emit (.callback (some e) .undefined)
  | .ok filename => (st.emit .configLoad).defer (.configLoad filename)

/-- Lines 27-43: the build function (`module.exports`) up to the call of
`zip.compress`; `callback` says whether a callback was passed. -/
def build (w : World) (options : Option Options) (callback : Bool) : St :=
  let st := St.init options
  match options with
  | none => st.throw "requires option parameter"
  | some o =>
    if !o.api then st.throw "requires option.api parameter"
    else if !o.emitter then st.throw "missing options.emitter parameter"
    else if o.platforms.isNone then st.throw "requires option.platforms parameter"
    else if !callback then st.throw "requires callback parameter"
    else
      let www := pathJoin w.cwd "www"
      let build := pathJoin w.cwd "build"
      let st := st.emit (.log "compressing the app...")
      (st.emit (.compress www build)).defer .compress

/-! ## Runs -/

/-- Deliver the reply a task waits for: run its callback. A timer has no reply; when
it fires, `waitForComplete` is called again with the same arguments. -/
def deliver (w : World) (t : Task) (st : St) : St :=
  match t with
  | .compress => build.onCompress w.compress st
  | .configLoad filename => build.onConfig w filename w.config st
  | .unlock k cb => unlockKey.onPut cb (w.unlock k) st
  | .upload filename id => build.onUpload filename id w.upload st
  | .get k o cb => waitForComplete.onGet o cb (w.get k) st
  | .timer o cb => waitForComplete (some o) (some cb) st

/-- One turn: the scheduler's number picks one of the outstanding replies, which is
delivered. Nothing runs after an uncaught exception, or when nothing is outstanding. -/
def step (w : World) (st : St) (choice : Nat) : St :=
  if st.thrown.isSome then st
  else
    match st.pending[choice % st.pending.length]? with
    | none => st
    | some t => deliver w t { st with pending := st.pending.eraseIdx (choice % st.pending.length) }

/-- A run: the turns of a schedule, one after the other. -/
def run (w : World) (sched : List Nat) (st : St) : St :=
  sched.foldl (step w) st

/-! ## Observations used in the statements -/

/-- The three things `waitForComplete` can do with a successful status response. -/
inductive Decision where
  | fail
  | complete
  | wait
  deriving DecidableEq, Repr

/-- The decision read off a turn of the poll loop: what it added to the trace and to the
outstanding replies. -/
def decisionTaken (before after : St) : Option Decision :=
  match after.trace.drop before.trace.length, after.pending.drop before.pending.length with
  | [.callback (some _) _], [] => some .fail
  | [.callback none _], [] => some .complete
  | [.setTimeout _], [.timer _ _] => some .wait
  | _, _ => none

/-- The decision rule of the specification, on the status of the watched platform. -/
def specDecision : Option String → Decision
  | some "error" => .fail
  | some "complete" => .complete
  | _ => .wait

/-- The status `waitForComplete` looks at in a response: `data.status[platforms[0]]`. -/
def watchedStatus (o : PollOptions) (data : AppRecord) : Option String :=
  data.status.lookup (strOf (o.platforms.getD []).head?)

/-- A terminal result of a status query: the query failed, or the watched platform is
`complete` or `error`. -/
def isTerminal (o : PollOptions) : Except Err AppRecord → Bool
  | .error _ => true
  | .ok data => watchedStatus o data == some "error" || watchedStatus o data == some "complete"

/-- The arguments `waitForComplete` accepts. -/
def PollOptions.valid (o : PollOptions) : Bool :=
  o.api && o.id.truthy && o.platforms.isSome

/-- The error `waitForComplete` builds for a response whose watched platform is in `error`. -/
def buildFailed (o : PollOptions) (data : AppRecord) : Err :=
  ⟨"error occurred while building the " ++ strOf (o.platforms.getD []).head? ++ " app: "
    ++ strOf (data.error.lookup (strOf (o.platforms.getD []).head?))⟩

/-- The arguments of the one callback invocation that ends the poll loop on the
terminal result `r`. -/
def pollOutcome (o : PollOptions) : Except Err AppRecord → Event
  | .error e => .callback (some e) .undefined
  | .ok data =>
    if watchedStatus o data = some "error" then .callback (some (buildFailed o data)) .undefined
    else .callback none (.app data)

/-- The events of `m` rounds of the poll loop after the first query: a wait, then a query. -/
def pollRounds (o : PollOptions) (m : Nat) : List Event :=
  (List.replicate m [Event.setTimeout 5000, Event.get ("/apps/" ++ o.id.toStr)]).flatten

def Options.accepted (o : Options) : Bool :=
  o.api && o.emitter && o.platforms.isSome

/-- A status query. -/
def Event.isGet : Event → Bool
  | .get _ => true
  | _ => false

/-- A scheduled wait. -/
def Event.isWait : Event → Bool
  | .setTimeout _ => true
  | _ => false

/-- An invocation of the completion callback. -/
def Event.isCallback : Event → Bool
  | .callback _ _ => true
  | _ => false

/-- A run of `waitForComplete` called on its own, with the caller's callback. -/
def waitRun (w : World) (o : PollOptions) (sched : List Nat) : St :=
  run w sched (waitForComplete (some o) (some .caller) (St.init none))

/-- A run of the build function. -/
def buildRun (w : World) (o : Options) (sched : List Nat) : St :=
  run w sched (build w (some o) true)

/-- A run of `unlockKey` called on its own, with the caller's callback. -/
def unlockRun (w : World) (o : Options) (sched : List Nat) : St :=
  run w sched (unlockKey w (some .caller) (St.init (some o)))

/-- The arguments `unlockKey` accepts. -/
def Options.unlockable (o : Options) : Bool :=
  o.api && o.emitter && o.platform.truthy && o.id.truthy && o.data.isSome

/-- The platform names used in the examples. -/
def iosOnly : PollOptions :=
  { id := .num 12, api := true, platforms := some ["ios"] }

/-- A status response in which `ios` has the given status. -/
def iosStatus (s : String) : AppRecord :=
  { status := [("ios", s)], error := [] }

/-- The service answers `building`, `building`, `complete`. -/
def threeQueries : World :=
  { cwd := "/project", compress := .ok "app.zip", config := .ok (.num 12),
    unlockNow := fun _ => false, unlock := fun _ => .ok ⟨false, ""⟩, upload := none,
    get := fun k => if k < 2 then .ok (iosStatus "building") else .ok (iosStatus "complete") }

/-- The service answers `building`, then `error` with `error.ios = "signing failed"`. -/
def signingFails : World :=
  { cwd := "/project", compress := .ok "app.zip", config := .ok (.num 12),
    unlockNow := fun _ => false, unlock := fun _ => .ok ⟨false, ""⟩, upload := none,
    get := fun k =>
      if k < 1 then .ok (iosStatus "building")
      else .ok { status := [("ios", "error")], error := [("ios", "signing failed")] } }

/-- A failed poll: the query failed, or the watched platform is in `error`. -/
def isFailure (o : PollOptions) : Except Err AppRecord → Bool
  | .error _ => true
  | .ok data => watchedStatus o data == some "error"

/-- A request for two platforms, `ios` first. -/
def iosAndroid : PollOptions :=
  { id := .num 12, api := true, platforms := some ["ios", "android"] }

/-- The credential objects of a request, in the order of their addresses. -/
def credsOf (l : List Credential) : Nat → Credential :=
  fun a => l.getD a ⟨.undefined, ""⟩

/-- A request without `platforms`. -/
def noPlatforms : Options :=
  { api := true, emitter := true, platforms := none, keys := none, creds := credsOf [],
    platform := .undefined, id := .undefined, data := none }

/-- A request for `ios`, without keys. -/
def iosRequest : Options :=
  { api := true, emitter := true, platforms := some ["ios"], keys := none, creds := credsOf [],
    platform := .undefined, id := .undefined, data := none }

/-- The upload is refused. -/
def uploadFails : World :=
  { cwd := "/project", compress := .ok "app.zip", config := .ok (.num 12),
    unlockNow := fun _ => false, unlock := fun _ => .ok ⟨false, ""⟩,
    upload := some ⟨"ECONNRESET"⟩, get := fun _ => .ok (iosStatus "complete") }

/-- The config lookup finds no linked app. -/
def configFails : World :=
  { cwd := "/project", compress := .ok "app.zip", config := .error ⟨"ENOENT"⟩,
    unlockNow := fun _ => false, unlock := fun _ => .ok ⟨false, ""⟩,
    upload := none, get := fun _ => .ok (iosStatus "complete") }

/-- The service reports every key as still locked, with a link. -/
def stillLocked : World :=
  { cwd := "/project", compress := .ok "app.zip", config := .ok (.num 12),
    unlockNow := fun _ => false,
    unlock := fun _ => .ok ⟨true, "https://build.phonegap.com/keys"⟩,
    upload := none, get := fun _ => .ok (iosStatus "complete") }

/-- The arguments of a direct call of `unlockKey` for the `ios` key 7. -/
def unlockIos : Options :=
  { api := true, emitter := true, platforms := none, keys := none, creds := credsOf [],
    platform := .str "ios", id := .num 7, data := some ⟨.undefined, "secret"⟩ }

/-- The request object after the assignments of lines 69-73 for `key`, which holds the
credential object at address `a`. -/
def Options.withKey (o : Options) (key : String) (a : Nat) : Options :=
  { api := o.api, emitter := o.emitter, platforms := o.platforms, keys := o.keys,
    creds := deleteId a o.creds,
    platform := .str key, id := (o.creds a).id,
    data := some { o.creds a with id := .undefined } }

/-- The request object after the loop has processed `key`. -/
def Options.afterKey (o : Options) (key : String) : Options :=
  match (o.keys.getD []).lookup key with
  | none => o
  | some a => o.withKey key a

/-- A reply other than those of `zip.compress` and `config.local.load`. -/
def Task.isLate : Task → Bool
  | .compress => false
  | .configLoad _ => false
  | _ => true

/-- The place of a collaborator call in the order of a run: `zip.compress`, then
`config.local.load`, then the key-unlock puts, then the upload put, then the status
queries. Other events have no place in it. -/
def Event.stage : Event → Option Nat
  | .compress _ _ => some 0
  | .configLoad => some 1
  | .put _ (.data _) => some 2
  | .put _ (.file _) => some 3
  | .get _ => some 4
  | _ => none

/-- The event `b` may come after `a`: its stage is not an earlier one. -/
def Event.notAfter (a b : Event) : Bool :=
  match a.stage, b.stage with
  | some x, some y => decide (x ≤ y)
  | _, _ => true

/-- An event outside the order of stages. -/
def Event.unstaged (e : Event) : Bool :=
  e.stage.isNone

/-- An event of the time after the upload put was issued: outside the order of stages, or
a status query. -/
def Event.afterUpload (e : Event) : Bool :=
  e.stage.isNone || e.stage == some 4

/-- An event of the key fan-out: outside the order of stages, or a key-unlock put. -/
def Event.ofFanOut (e : Event) : Bool :=
  e.stage.isNone || e.stage == some 2

/-- The state `st2` continues `st1`: events were appended to the trace, all satisfying
`pe`, and replies were added to the outstanding ones, all satisfying `pt`. -/
def Grows (pe : Event → Bool) (pt : Task → Bool) (st1 st2 : St) : Prop :=
  ∃ ex ts, st2.trace = st1.trace ++ ex ∧ st2.pending = st1.pending ++ ts ∧
    (∀ e ∈ ex, pe e = true) ∧ (∀ t ∈ ts, pt t = true)

/-- The calls of a trace are in the order of their stages: of two events, the later one
never belongs to an earlier stage. -/
def inOrder (tr : List Event) : Prop :=
  tr.Pairwise fun a b => a.notAfter b = true

/-- The trace of the build function when it has called `zip.compress`. -/
def compressCalled (w : World) : List Event :=
  [.log "compressing the app...", .compress (pathJoin w.cwd "www") (pathJoin w.cwd "build")]

/-- What holds of every state of a run of the build function: it waits for the
compression, or for the config lookup, or only later replies are outstanding and the
calls so far are in order. -/
def OrderInv (w : World) (st : St) : Prop :=
  (st.trace = compressCalled w ∧ st.pending = [.compress]) ∨
  (∃ f, st.trace = compressCalled w ++ [.configLoad] ∧ st.pending = [.configLoad f]) ∨
  ((∀ t ∈ st.pending, t.isLate = true) ∧ inOrder st.trace)

/-- A request for `ios` with the signing key 7. -/
def iosKeyRequest : Options :=
  { api := true, emitter := true, platforms := some ["ios"],
    keys := some [("ios", 0)], creds := credsOf [⟨.num 7, "secret"⟩],
    platform := .undefined, id := .undefined, data := none }

/-- A key-unlock put whose outcome the build function passes to the callback: the put
failed, or the response has `locked` truthy. -/
def keyFailed : Except Err KeyResp → Bool
  | .error _ => true
  | .ok data => data.locked

/-- The state `st2` has the request object and the count of unlock puts of `st1`. -/
def Keeps (st1 st2 : St) : Prop :=
  st2.opts = st1.opts ∧ st2.unlocks = st1.unlocks

/-- Every key-unlock put is refused by the service. -/
def unlockRefused : World :=
  { cwd := "/project", compress := .ok "app.zip", config := .ok (.num 12),
    unlockNow := fun _ => false, unlock := fun _ => .error ⟨"401"⟩,
    upload := none, get := fun _ => .ok (iosStatus "complete") }

/-- The request object after the loop has processed the keys `names`, in order. -/
def Options.afterKeys (o : Options) (names : List String) : Options :=
  names.foldl Options.afterKey o

/-- A request for `ios` and `android` with a signing key for each. -/
def twoKeyRequest : Options :=
  { api := true, emitter := true, platforms := some ["ios", "android"],
    keys := some [("ios", 0), ("android", 1)],
    creds := credsOf [⟨.num 7, "secret"⟩, ⟨.num 8, "keystore"⟩],
    platform := .undefined, id := .undefined, data := none }

/-- The state in which the callback of `config.local.load` runs: the request was
accepted and compression has succeeded. -/
def configCalled (w : World) (o : Options) : St :=
  { opts := some o, trace := compressCalled w ++ [.configLoad], pending := [],
    unlocks := 0, gets := 0, thrown := none }

/-- The reply of a key-unlock put. -/
def Task.isUnlock : Task → Bool
  | .unlock _ _ => true
  | _ => false

/-- The `platforms` of the request object of a state. -/
def St.platforms (st : St) : Option (List String) :=
  st.opts.bind Options.platforms

/-- The number of keys of the request object of a state. -/
def St.keyCount (st : St) : Nat :=
  ((st.opts.bind Options.keys).getD []).length

/-- The key fan-out from `st1` to `st2`: at most `n` replies of key-unlock puts were left
outstanding, and neither the count of status queries nor the `platforms` of the request
changed. -/
def FanOut (n : Nat) (st1 st2 : St) : Prop :=
  ∃ ts, st2.pending = st1.pending ++ ts ∧ (∀ t ∈ ts, t.isUnlock = true) ∧ ts.length ≤ n ∧
    st2.gets = st1.gets ∧ st2.platforms = st1.platforms

/-- A bound on the number of turns the delivery of an outstanding reply, and of what
follows from it, can still take, when the status queries reach a terminal result with
query number `m` (counted from 0), `gets` queries have been issued and the request has
`keys` keys. -/
def Task.turns (m gets keys : Nat) : Task → Nat
  | .unlock _ _ => 1
  | .get k _ _ => 2 * (m - k) + 1
  | .timer _ _ => 2 * (m - gets) + 2
  | .upload _ _ => 2 * (m - gets) + 2
  | .configLoad _ => 2 * (m - gets) + 3 + keys
  | .compress => 2 * (m - gets) + 4 + keys

/-- A bound on the number of turns a run can still take from a state. -/
def turnsLeft (m : Nat) (st : St) : Nat :=
  (st.pending.map (Task.turns m st.gets st.keyCount)).sum

/-- What an outstanding reply of the main sequence needs of the state for the bound to
hold: the query it answers is the last one issued, and no query beyond number `m` is
issued; the platforms watched are those of the request. -/
def Task.fits (m : Nat) (ps : Option (List String)) (st : St) : Task → Prop
  | .unlock _ _ => True
  | .get k o _ => k + 1 = st.gets ∧ k ≤ m ∧ o.platforms = ps
  | .timer o _ => st.gets ≤ m ∧ o.platforms = ps
  | _ => st.gets ≤ m ∧ st.platforms = ps

/-- The number of outstanding replies of the main sequence. -/
def mainCount (ts : List Task) : Nat :=
  (ts.map fun t => if t.isUnlock then 0 else 1).sum

/-- What holds of every state of a run of the build function: at most one reply of the
main sequence is outstanding, and every outstanding reply fits the state. -/
def EndInv (m : Nat) (ps : Option (List String)) (st : St) : Prop :=
  (∀ t ∈ st.pending, t.fits m ps st) ∧ mainCount st.pending ≤ 1

/-- A key-unlock put. -/
def Event.isUnlockPut : Event → Bool
  | .put _ (.data _) => true
  | _ => false

/-- The number of key-unlock puts issued in a trace. -/
def unlockPuts (tr : List Event) : Nat :=
  (tr.filter Event.isUnlockPut).length

/-- The count of unlock puts of a state is the number of key-unlock puts in its trace. -/
def Synced (st : St) : Prop :=
  st.unlocks = unlockPuts st.trace

/-- A request whose `ios` key has the id 0. -/
def zeroIdRequest : Options :=
  { api := true, emitter := true, platforms := some ["ios", "android"],
    keys := some [("ios", 0), ("android", 1)],
    creds := credsOf [⟨.num 0, "secret"⟩, ⟨.num 8, "keystore"⟩],
    platform := .undefined, id := .undefined, data := none }

/-- A request whose `keys` object is empty. -/
def emptyKeysRequest : Options :=
  { api := true, emitter := true, platforms := some ["ios"],
    keys := some [], creds := credsOf [],
    platform := .undefined, id := .undefined, data := none }

/-- A request whose two keys hold the same credential object. -/
def sharedKeyRequest : Options :=
  { api := true, emitter := true, platforms := some ["ios", "android"],
    keys := some [("ios", 0), ("android", 0)], creds := credsOf [⟨.num 7, "secret"⟩],
    platform := .undefined, id := .undefined, data := none }

/-- A request whose only key stands under the empty platform name. -/
def unnamedKeyRequest : Options :=
  { api := true, emitter := true, platforms := some ["ios"],
    keys := some [("", 0)], creds := credsOf [⟨.num 7, "secret"⟩],
    platform := .undefined, id := .undefined, data := none }

/-- The number `k` of a key-unlock put, listed if the put failed or its response reported
`locked`. -/
def failedPut (w : World) (k : Nat) : List Nat :=
  if keyFailed (w.unlock k) then [k] else []

/-- The numbers of the first `n` key-unlock puts that failed or reported `locked`. -/
def failedPuts (w : World) (n : Nat) : List Nat :=
  (List.range n).filter fun k => keyFailed (w.unlock k)

/-- The failed key-unlock put an outstanding reply belongs to, if any. -/
def Task.failed (w : World) : Task → List Nat
  | .unlock k _ => failedPut w k
  | _ => []

/-- The numbers of the failed key-unlock puts whose reply is outstanding. -/
def pendingFailed (w : World) (ts : List Task) : List Nat :=
  (ts.map (Task.failed w)).flatten

/-- The platform names under which a request holds keys. -/
def keyNames (o : Options) : List String :=
  (o.keys.getD []).map Prod.fst

/-- The invocations by which the failure of the key-unlock put number `k` can reach the
completion callback: the error of the put, unchanged and without data; or, for a response
with `locked`, the error built from a platform name of the request and the link of the
response, without data. A put that succeeded has none. -/
def unlockErrors (w : World) (names : List String) (k : Nat) : List Event :=
  match w.unlock k with
  | .error e => [.callback (some e) .undefined]
  | .ok data =>
    if data.locked then
      names.map fun p => .callback
        (some ⟨"error occurred while unlocking the " ++ p ++ " key: " ++ data.link⟩) .undefined
    else []

/-- An invocation of the completion callback with the outcome of the build: the error of
`zip.compress`, of `config.local.load` or of the upload put, unchanged and without data;
or what ends the poll loop on a terminal result of a status query (the error of the
query, the error built for the status `error`, or `null` and the app record). -/
def Outcome (w : World) (ps : Option (List String)) (ev : Event) : Prop :=
  (∃ e, w.compress = .error e ∧ ev = .callback (some e) .undefined) ∨
  (∃ e, w.config = .error e ∧ ev = .callback (some e) .undefined) ∨
  (∃ e, w.upload = some e ∧ ev = .callback (some e) .undefined) ∨
  (∃ k po, po.platforms = ps ∧ isTerminal po (w.get k) = true ∧ ev = pollOutcome po (w.get k))

/-- An outstanding reply as the build function leaves it: the callback is the one the
build function passes, and the platforms watched are `ps`. -/
def Task.ofBuild (ps : Option (List String)) : Task → Prop
  | .unlock _ cb => cb = .build
  | .get _ o cb => cb = .build ∧ o.platforms = ps
  | .timer o cb => cb = .build ∧ o.platforms = ps
  | _ => True

/-- The books of a run of the build function. The invocations of the callback so far are
those of `main`, each an outcome of the build, and those of `led`, each the error of the
failed key-unlock put it is listed with. With the credit `c` of a reply of the main
sequence that is being handled, exactly one outcome is made, outstanding, or lost to an
exception. With the failed puts `x` that are being handled, every failed key-unlock put
issued is in `led` or outstanding, once. The outstanding replies are as the build
function leaves them, and the request object has the platforms `ps` and the key names
`names`, its `platform` being one of them once an unlock put has been issued. -/
def Books (w : World) (ps : Option (List String)) (names : List String) (c : Nat)
    (x : List Nat) (st : St) : Prop :=
  (∃ (main : List Event) (led : List (Nat × Event)),
    (∀ ev, (st.trace.filter Event.isCallback).count ev
      = main.count ev + (led.map Prod.snd).count ev) ∧
    (∀ ev ∈ main, Outcome w ps ev) ∧
    (∀ p ∈ led, p.2 ∈ unlockErrors w names p.1) ∧
    main.length + mainCount st.pending + (if st.thrown.isSome then 1 else c) = 1 ∧
    (∀ k, (led.map Prod.fst).count k + (pendingFailed w st.pending).count k + x.count k
      = (failedPuts w st.unlocks).count k)) ∧
  (∀ t ∈ st.pending, t.ofBuild ps) ∧
  (∃ o, st.opts = some o ∧ o.platforms = ps ∧ keyNames o = names ∧
    (st.unlocks = 0 ∨ ∃ p ∈ names, o.platform = .str p))

/-- The config lookup finds the app id 0. -/
def zeroAppId : World :=
  { cwd := "/project", compress := .ok "app.zip", config := .ok (.num 0),
    unlockNow := fun _ => false, unlock := fun _ => .ok ⟨false, ""⟩,
    upload := none, get := fun _ => .ok (iosStatus "complete") }

/-! ## Runs: basic facts -/

theorem run_nil (w : World) (st : St) : run w [] st = st := rfl

theorem run_cons (w : World) (c : Nat) (sched : List Nat) (st : St) :
    run w (c :: sched) st = run w sched (step w st c) := rfl

theorem step_thrown (w : World) (st : St) (c : Nat) (h : st.thrown.isSome = true) :
    step w st c = st := by
  simp [step, h]

theorem run_thrown (w : World) (sched : List Nat) (st : St) (h : st.thrown.isSome = true) :
    run w sched st = st := by
  induction sched with
  | nil => rfl
  | cons c rest ih => rw [run_cons, step_thrown w st c h, ih]

theorem step_idle (w : World) (st : St) (c : Nat) (h : st.pending = []) :
    step w st c = st := by
  simp [step, h]

theorem run_idle (w : World) (sched : List Nat) (st : St) (h : st.pending = []) :
    run w sched st = st := by
  induction sched with
  | nil => rfl
  | cons c rest ih => rw [run_cons, step_idle w st c h, ih]

theorem step_single (w : World) (st : St) (c : Nat) (t : Task) (hp : st.pending = [t])
    (ht : st.thrown = none) : step w st c = deliver w t { st with pending := [] } := by
  simp [step, hp, ht, Nat.mod_one]

/-- C9: for every request whose `platforms` is absent, whatever its other fields and
whether or not a callback is passed, the build function throws one of its argument
errors before anything else happens: the trace stays empty (no notification, no call of
`zip.compress`, `config.local.load`, `api.put` or `api.get`, no callback invocation) and
nothing is outstanding, however long the run; with `api` and `emitter` present the error
is `requires option.platforms parameter`. -/
theorem build_without_platforms (w : World) (o : Options) (callback : Bool) (sched : List Nat)
    (h : o.platforms = none) :
    (run w sched (build w (some o) callback)).trace = [] ∧
    (run w sched (build w (some o) callback)).pending = [] ∧
    ((run w sched (build w (some o) callback)).thrown = some "requires option.api parameter" ∨
      (run w sched (build w (some o) callback)).thrown = some "missing options.emitter parameter" ∨
      (run w sched (build w (some o) callback)).thrown
        = some "requires option.platforms parameter") ∧
    (o.api = true → o.emitter = true →
      (run w sched (build w (some o) callback)).thrown
        = some "requires option.platforms parameter") := by
  have hb : (build w (some o) callback).thrown.isSome = true := by
    simp only [build, h]
    cases o.api <;> cases o.emitter <;> simp [St.throw]
  rw [run_thrown w sched _ hb]
  simp only [build, h]
  cases o.api <;> cases o.emitter <;> simp [St.throw, St.init]

/-- C8: on a successful status response `waitForComplete` decides by the status of the
first platform alone: two platform lists with the same first element `p` and two
responses with the same `status[p]` lead to the same decision, the one the decision rule
gives for `status[p]`, whatever the other platforms and their statuses. -/
theorem waitForComplete_decision (p : String) (r1 r2 : List String) (o1 o2 : PollOptions)
    (cb1 cb2 : PollCb) (d1 d2 : AppRecord) (st1 st2 : St)
    (h1 : o1.platforms = some (p :: r1)) (h2 : o2.platforms = some (p :: r2))
    (hs : d1.status.lookup p = d2.status.lookup p) :
    decisionTaken st1 (waitForComplete.onGet o1 cb1 (.ok d1) st1)
      = some (specDecision (d1.status.lookup p)) ∧
    decisionTaken st2 (waitForComplete.onGet o2 cb2 (.ok d2) st2)
      = some (specDecision (d1.status.lookup p)) := by
  have key : ∀ (o : PollOptions) (r : List String) (cb : PollCb) (d : AppRecord) (st : St),
      o.platforms = some (p :: r) →
      decisionTaken st (waitForComplete.onGet o cb (.ok d) st)
        = some (specDecision (d.status.lookup p)) := by
    intro o r cb d st ho
    simp only [waitForComplete.onGet, ho, Option.getD_some, List.head?_cons, strOf]
    by_cases he : List.lookup p d.status = some "error"
    · simp [he, specDecision, decisionTaken, pollCallback, St.emit]
      cases cb <;> simp
    · by_cases hc : List.lookup p d.status = some "complete"
      · simp [hc, specDecision, decisionTaken, pollCallback, St.emit]
        cases cb <;> simp
      · simp [he, hc, decisionTaken, St.emit, St.defer]
        unfold specDecision
        split <;> simp_all
  exact ⟨key o1 r1 cb1 d1 st1 h1, hs ▸ key o2 r2 cb2 d2 st2 h2⟩

theorem onGet_terminal (o : PollOptions) (cb : PollCb) (r : Except Err AppRecord) (st : St)
    (h : isTerminal o r = true) :
    waitForComplete.onGet o cb r st = st.emit (pollOutcome o r) := by
  cases r with
  | error e => cases cb <;> simp [waitForComplete.onGet, pollCallback, pollOutcome]
  | ok data =>
    simp only [isTerminal, watchedStatus, Bool.or_eq_true, beq_iff_eq] at h
    by_cases he : List.lookup (strOf (o.platforms.getD []).head?) data.status = some "error"
    · cases cb <;>
        simp [waitForComplete.onGet, pollCallback, pollOutcome, watchedStatus, he, buildFailed]
    · have hc := h.resolve_left he
      cases cb <;>
        simp [waitForComplete.onGet, pollCallback, pollOutcome, watchedStatus, hc]

theorem onGet_waiting (o : PollOptions) (cb : PollCb) (r : Except Err AppRecord) (st : St)
    (h : isTerminal o r = false) :
    waitForComplete.onGet o cb r st = (st.emit (.setTimeout 5000)).defer (.timer o cb) := by
  cases r with
  | error e => simp [isTerminal] at h
  | ok data =>
    simp only [isTerminal, watchedStatus, Bool.or_eq_false_iff, beq_eq_false_iff_ne, ne_eq] at h
    simp [waitForComplete.onGet, h.1, h.2]

theorem waitForComplete_valid (o : PollOptions) (cb : PollCb) (st : St)
    (h : o.valid = true) :
    waitForComplete (some o) (some cb) st
      = { (st.emit (.get ("/apps/" ++ o.id.toStr))).defer (.get st.gets o cb) with
          gets := st.gets + 1 } := by
  simp only [PollOptions.valid, Bool.and_eq_true] at h
  obtain ⟨⟨h1, h2⟩, h3⟩ := h
  cases hp : o.platforms with
  | none => simp [hp] at h3
  | some ps => simp [waitForComplete, h1, h2, hp]

theorem poll_run (w : World) (o : PollOptions) (cb : PollCb) (hv : o.valid = true) :
    ∀ (m k : Nat) (st : St) (sched : List Nat),
      st.pending = [.get k o cb] → st.thrown = none → st.gets = k + 1 →
      (∀ i, i < m → isTerminal o (w.get (k + i)) = false) →
      isTerminal o (w.get (k + m)) = true →
      2 * m + 1 ≤ sched.length →
      run w sched st =
        { st with
            pending := []
            trace := st.trace ++ pollRounds o m ++ [pollOutcome o (w.get (k + m))]
            gets := k + 1 + m } := by
  intro m
  induction m with
  | zero =>
    intro k st sched hp ht hg _ hterm hlen
    rw [Nat.add_zero] at hterm
    cases sched with
    | nil => simp at hlen
    | cons c rest =>
      rw [run_cons, step_single w st c _ hp ht]
      simp only [deliver]
      rw [onGet_terminal o cb _ _ hterm, run_idle]
      · simp [St.emit, pollRounds, hg]
      · simp [St.emit]
  | succ m ih =>
    intro k st sched hp ht hg hwait hterm hlen
    match sched, hlen with
    | c1 :: c2 :: rest, hlen =>
      rw [run_cons, step_single w st c1 _ hp ht]
      simp only [deliver]
      have hw0 : isTerminal o (w.get k) = false := by simpa using hwait 0 (Nat.succ_pos m)
      rw [onGet_waiting o cb _ _ hw0]
      rw [run_cons, step_single w _ c2 (.timer o cb) (by simp [St.emit, St.defer])
        (by simp [St.emit, St.defer, ht])]
      simp only [deliver]
      rw [waitForComplete_valid o cb _ hv]
      rw [ih (k + 1) _ rest (by simp [St.emit, St.defer, hg]) (by simp [St.emit, St.defer, ht])
        (by simp [St.emit, St.defer, hg])
        (fun i hi => by
          have := hwait (i + 1) (Nat.succ_lt_succ hi)
          rwa [show k + 1 + i = k + (i + 1) by omega])
        (by rwa [show k + 1 + m = k + (m + 1) by omega])
        (by simp at hlen; omega)]
      simp [St.emit, St.defer, pollRounds, List.replicate_succ, hg]
      constructor
      · rw [show k + 1 + m = k + (m + 1) by omega]
      · omega

theorem build_accepted (w : World) (o : Options) (h : o.accepted = true) :
    build w (some o) true =
      { St.init (some o) with
          trace := [.log "compressing the app...",
            .compress (pathJoin w.cwd "www") (pathJoin w.cwd "build")]
          pending := [.compress] } := by
  simp only [Options.accepted, Bool.and_eq_true] at h
  obtain ⟨⟨h1, h2⟩, h3⟩ := h
  cases hp : o.platforms with
  | none => simp [hp] at h3
  | some ps => simp [build, h1, h2, hp, St.emit, St.defer, St.init]

/-- C5: on an accepted request without `keys`, when compression and the config lookup
succeed and the upload put fails with `e`, every run of at least three turns ends with
exactly this trace: `zip.cleanup` on the artifact comes before the callback, the callback
receives `e` and no data, `building the app...` is not emitted and `api.get` is never
called; nothing is outstanding afterwards. -/
theorem upload_failure (w : World) (o : Options) (filename : String) (id : JsVal) (e : Err)
    (sched : List Nat) (ha : o.accepted = true) (hk : o.keys = none)
    (hz : w.compress = .ok filename) (hc : w.config = .ok id) (hu : w.upload = some e)
    (hlen : 3 ≤ sched.length) :
    (buildRun w o sched).trace =
      [.log "compressing the app...",
        .compress (pathJoin w.cwd "www") (pathJoin w.cwd "build"),
        .configLoad,
        .log "uploading the app...",
        .put ("/apps/" ++ id.toStr) (.file filename),
        .cleanup filename,
        .callback (some e) .undefined] ∧
    (buildRun w o sched).pending = [] := by
  match sched, hlen with
  | c1 :: c2 :: c3 :: rest, _ =>
    unfold buildRun
    rw [build_accepted w o ha, run_cons, step_single w _ c1 .compress rfl rfl]
    simp only [deliver, hz, build.onCompress]
    rw [run_cons, step_single w _ c2 (.configLoad filename) rfl rfl]
    simp only [deliver, hc, build.onConfig, build.unlockKeys, St.emit, St.defer, St.init,
      Option.bind, hk]
    rw [run_cons, step_single w _ c3 (.upload filename id) (by simp) (by simp)]
    simp only [deliver, hu, build.onUpload, St.emit]
    rw [run_idle w rest _ (by simp)]
    simp

theorem rounds_shift (a b : Event) (m : Nat) :
    a :: (List.replicate m [b, a]).flatten = (List.replicate m [a, b]).flatten ++ [a] := by
  induction m with
  | zero => rfl
  | succ m ih => simp [List.replicate_succ, ih]

theorem rounds_filter_length (p : Event → Bool) (l : List Event) (m : Nat) :
    ((List.replicate m l).flatten.filter p).length = m * (l.filter p).length := by
  induction m with
  | zero => simp
  | succ m ih => simp [List.replicate_succ, List.filter_append, ih, Nat.succ_mul, Nat.add_comm]

theorem rounds_mem (a b x : Event) (m : Nat) (h : x ∈ (List.replicate m [a, b]).flatten) :
    x = a ∨ x = b := by
  induction m with
  | zero => simp at h
  | succ m ih =>
    simp only [List.replicate_succ, List.flatten_cons, List.mem_append, List.mem_cons,
      List.mem_singleton, List.not_mem_nil, or_false] at h
    rcases h with (h | h) | h
    · exact Or.inl h
    · exact Or.inr h
    · exact ih h

theorem waitRun_eq (w : World) (o : PollOptions) (m : Nat) (sched : List Nat)
    (hv : o.valid = true)
    (hwait : ∀ i, i < m → isTerminal o (w.get i) = false)
    (hterm : isTerminal o (w.get m) = true)
    (hlen : 2 * m + 1 ≤ sched.length) :
    waitRun w o sched =
      { St.init none with
          trace := (List.replicate m
              [Event.get ("/apps/" ++ o.id.toStr), Event.setTimeout 5000]).flatten
            ++ [Event.get ("/apps/" ++ o.id.toStr), pollOutcome o (w.get m)]
          gets := m + 1 } := by
  unfold waitRun
  rw [waitForComplete_valid o .caller _ hv]
  rw [poll_run w o .caller hv m 0 _ sched (by simp [St.emit, St.defer, St.init])
    (by simp [St.emit, St.defer, St.init]) (by simp [St.emit, St.defer, St.init])
    (fun i hi => by simpa using hwait i hi) (by simpa using hterm) hlen]
  have hs := rounds_shift (Event.get ("/apps/" ++ o.id.toStr)) (Event.setTimeout 5000) m
  simp only [List.cons_append, List.nil_append, St.emit, St.defer, St.init, pollRounds,
    Nat.zero_add, List.append_assoc]
  rw [← List.cons_append, hs]
  simp [Nat.add_comm]

/-- C6: when the first terminal result of the status queries is the one at position `m + 1`
(the `m` before it are non-terminal), every run of `waitForComplete` that is given at
least `2 * m + 1` turns issues `m + 1` queries to `/apps/<id>` and `m` waits of 5000 ms,
each wait between two consecutive queries, invokes the callback once, as the last
event, and on `complete` passes `(null, body)` with the body of the last response. -/
theorem waitForComplete_queries_until_terminal (w : World) (o : PollOptions) (m : Nat)
    (sched : List Nat) (hv : o.valid = true)
    (hwait : ∀ i, i < m → isTerminal o (w.get i) = false)
    (hterm : isTerminal o (w.get m) = true)
    (hlen : 2 * m + 1 ≤ sched.length) :
    (∃ e data, (waitRun w o sched).trace =
      (List.replicate m [Event.get ("/apps/" ++ o.id.toStr), Event.setTimeout 5000]).flatten
        ++ [Event.get ("/apps/" ++ o.id.toStr), Event.callback e data]) ∧
    ((waitRun w o sched).trace.filter Event.isGet).length = m + 1 ∧
    (∀ url, Event.get url ∈ (waitRun w o sched).trace → url = "/apps/" ++ o.id.toStr) ∧
    ((waitRun w o sched).trace.filter Event.isWait).length = m ∧
    (∀ ms, Event.setTimeout ms ∈ (waitRun w o sched).trace → ms = 5000) ∧
    ((waitRun w o sched).trace.filter Event.isCallback).length = 1 ∧
    (waitRun w o sched).pending = [] ∧
    (waitRun w o sched).thrown = none ∧
    (∀ body, w.get m = .ok body → watchedStatus o body = some "complete" →
      (waitRun w o sched).trace.getLast? = some (Event.callback none (.app body))) := by
  rw [waitRun_eq w o m sched hv hwait hterm hlen]
  obtain ⟨e, data, hout⟩ : ∃ e data, pollOutcome o (w.get m) = Event.callback e data := by
    unfold pollOutcome
    split
    · exact ⟨_, _, rfl⟩
    · split <;> exact ⟨_, _, rfl⟩
  refine ⟨⟨e, data, by rw [hout]⟩, ?_, ?_, ?_, ?_, ?_, rfl, rfl, ?_⟩
  · simp [hout, List.filter_append, rounds_filter_length, List.filter_cons, Event.isGet]
  · intro url hmem
    simp only [hout, List.mem_append, List.mem_cons, List.mem_singleton, List.not_mem_nil,
      or_false] at hmem
    rcases hmem with h | h | h
    · rcases rounds_mem _ _ _ m h with h | h
      · injection h
      · cases h
    · injection h
    · cases h
  · simp [hout, List.filter_append, rounds_filter_length, List.filter_cons, Event.isWait]
  · intro ms hmem
    simp only [hout, List.mem_append, List.mem_cons, List.mem_singleton, List.not_mem_nil,
      or_false] at hmem
    rcases hmem with h | h | h
    · rcases rounds_mem _ _ _ m h with h | h
      · cases h
      · injection h
    · cases h
    · cases h
  · simp [hout, List.filter_append, rounds_filter_length, List.filter_cons, Event.isCallback,
      Event.isGet]
  · intro body hb hc
    simp [hb, pollOutcome, hc]

theorem waitForComplete_queries_until_terminal_witness :
    ((waitRun threeQueries iosOnly [0, 0, 0, 0, 0]).trace.filter Event.isGet).length = 3 ∧
    ((waitRun threeQueries iosOnly [0, 0, 0, 0, 0]).trace.filter Event.isWait).length = 2 ∧
    (∀ ms, Event.setTimeout ms ∈ (waitRun threeQueries iosOnly [0, 0, 0, 0, 0]).trace →
      ms = 5000) ∧
    ((waitRun threeQueries iosOnly [0, 0, 0, 0, 0]).trace.filter Event.isCallback).length = 1 ∧
    (waitRun threeQueries iosOnly [0, 0, 0, 0, 0]).trace.getLast?
      = some (Event.callback none (.app (iosStatus "complete"))) :=
  have h := waitForComplete_queries_until_terminal threeQueries iosOnly 2 [0, 0, 0, 0, 0]
    (by decide) (by decide) (by decide) (by decide)
  ⟨h.2.1, h.2.2.2.1, h.2.2.2.2.1, h.2.2.2.2.2.1, h.2.2.2.2.2.2.2.2 _ rfl (by decide)⟩

/-- C7: when the poll loop ends in failure (the query fails, or the watched platform is in
`error`), the callback is invoked once, with an error and no data, and nothing is
outstanding afterwards, so that no further query or wait happens: a failed query passes
its error `e` unchanged, and an `error` status passes an error whose message is
`error occurred while building the <platform> app: <error[platform]>`, built from the
same response. -/
theorem waitForComplete_failure (w : World) (o : PollOptions) (m : Nat) (sched : List Nat)
    (hv : o.valid = true)
    (hwait : ∀ i, i < m → isTerminal o (w.get i) = false)
    (hfail : isFailure o (w.get m) = true)
    (hlen : 2 * m + 1 ≤ sched.length) :
    (∃ err, (waitRun w o sched).trace =
        (List.replicate m [Event.get ("/apps/" ++ o.id.toStr), Event.setTimeout 5000]).flatten
          ++ [Event.get ("/apps/" ++ o.id.toStr), Event.callback (some err) .undefined] ∧
      (∀ e, w.get m = .error e → err = e) ∧
      (∀ body, w.get m = .ok body →
        err.message = "error occurred while building the " ++ strOf (o.platforms.getD []).head?
          ++ " app: " ++ strOf (body.error.lookup (strOf (o.platforms.getD []).head?)))) ∧
    (waitRun w o sched).pending = [] ∧
    (∀ more, run w more (waitRun w o sched) = waitRun w o sched) := by
  have hterm : isTerminal o (w.get m) = true := by
    cases hr : w.get m with
    | error e => rfl
    | ok body => simpa [hr, isFailure, isTerminal] using Or.inl (by simpa [hr, isFailure] using hfail)
  have hrun := waitRun_eq w o m sched hv hwait hterm hlen
  have hpend : (waitRun w o sched).pending = [] := by rw [hrun]; rfl
  refine ⟨?_, hpend, fun more => run_idle w more _ hpend⟩
  rw [hrun]
  cases hr : w.get m with
  | error e =>
    refine ⟨e, by simp [pollOutcome], ?_, ?_⟩
    · intro e2 h
      cases h
      rfl
    · intro body h
      cases h
  | ok body =>
    have hs : watchedStatus o body = some "error" := by simpa [hr, isFailure] using hfail
    refine ⟨buildFailed o body, by simp [pollOutcome, hs], ?_, ?_⟩
    · intro e h
      cases h
    · intro b h
      cases h
      rfl

theorem waitForComplete_failure_witness :
    (waitRun signingFails iosOnly [0, 0, 0]).trace =
      [Event.get "/apps/12", Event.setTimeout 5000, Event.get "/apps/12",
        Event.callback
          (some ⟨"error occurred while building the ios app: signing failed"⟩) .undefined] ∧
    (∀ more, run signingFails more (waitRun signingFails iosOnly [0, 0, 0])
      = waitRun signingFails iosOnly [0, 0, 0]) :=
  have h := waitForComplete_failure signingFails iosOnly 1 [0, 0, 0]
    (by decide) (by decide) (by decide) (by decide)
  ⟨by
    obtain ⟨err, ht, _, hm⟩ := h.1
    have hmsg := hm _ rfl
    rw [ht]
    cases err
    simp only at hmsg
    subst hmsg
    decide, h.2.2⟩

theorem build_without_platforms_witness :
    (buildRun uploadFails noPlatforms [0, 0, 0]).trace = [] ∧
    (buildRun uploadFails noPlatforms [0, 0, 0]).thrown
      = some "requires option.platforms parameter" :=
  have h := build_without_platforms uploadFails noPlatforms true [0, 0, 0] rfl
  ⟨h.1, h.2.2.2 rfl rfl⟩

theorem waitForComplete_decision_witness :
    decisionTaken (St.init none)
        (waitForComplete.onGet iosAndroid .caller
          (.ok { status := [("ios", "complete"), ("android", "error")], error := [] })
          (St.init none))
      = some Decision.complete ∧
    decisionTaken (St.init none)
        (waitForComplete.onGet iosAndroid .caller
          (.ok { status := [("ios", "complete"), ("android", "building")], error := [] })
          (St.init none))
      = some Decision.complete ∧
    decisionTaken (St.init none)
        (waitForComplete.onGet iosAndroid .caller
          (.ok { status := [("ios", "building"), ("android", "error")], error := [] })
          (St.init none))
      = some Decision.wait :=
  have h1 := waitForComplete_decision "ios" ["android"] ["android"] iosAndroid iosAndroid
    .caller .caller
    { status := [("ios", "complete"), ("android", "error")], error := [] }
    { status := [("ios", "complete"), ("android", "building")], error := [] }
    (St.init none) (St.init none) rfl rfl rfl
  have h2 := waitForComplete_decision "ios" ["android"] ["android"] iosAndroid iosAndroid
    .caller .caller
    { status := [("ios", "building"), ("android", "error")], error := [] }
    { status := [("ios", "building"), ("android", "error")], error := [] }
    (St.init none) (St.init none) rfl rfl rfl
  ⟨h1.1, h1.2, h2.1⟩

theorem upload_failure_witness :
    (buildRun uploadFails iosRequest [0, 0, 0]).trace =
      [.log "compressing the app...",
        .compress "/project/www" "/project/build",
        .configLoad,
        .log "uploading the app...",
        .put "/apps/12" (.file "app.zip"),
        .cleanup "app.zip",
        .callback (some ⟨"ECONNRESET"⟩) .undefined] ∧
    (buildRun uploadFails iosRequest [0, 0, 0]).pending = [] :=
  upload_failure uploadFails iosRequest "app.zip" (.num 12) ⟨"ECONNRESET"⟩ [0, 0, 0]
    rfl rfl rfl rfl rfl (by decide)

/-- C4 (what the code does): when compression succeeds and the config lookup fails with
`e`, the run ends with `callback(e)` and `zip.cleanup` is never called: the trace is the
compress call, the config lookup and the callback, and nothing is outstanding. -/
theorem config_failure_leaves_artifact (w : World) (o : Options) (filename : String) (e : Err)
    (sched : List Nat) (ha : o.accepted = true)
    (hz : w.compress = .ok filename) (hc : w.config = .error e)
    (hlen : 2 ≤ sched.length) :
    (buildRun w o sched).trace =
      [.log "compressing the app...",
        .compress (pathJoin w.cwd "www") (pathJoin w.cwd "build"),
        .configLoad,
        .callback (some e) .undefined] ∧
    Event.cleanup filename ∉ (buildRun w o sched).trace ∧
    (buildRun w o sched).pending = [] := by
  have hrun : buildRun w o sched =
      { St.init (some o) with
          trace := [.log "compressing the app...",
            .compress (pathJoin w.cwd "www") (pathJoin w.cwd "build"),
            .configLoad,
            .callback (some e) .undefined] } := by
    match sched, hlen with
    | c1 :: c2 :: rest, _ =>
      unfold buildRun
      rw [build_accepted w o ha, run_cons, step_single w _ c1 .compress rfl rfl]
      simp only [deliver, hz, build.onCompress]
      rw [run_cons, step_single w _ c2 (.configLoad filename) rfl rfl]
      simp only [deliver, hc, build.onConfig, St.emit, St.defer, St.init]
      rw [run_idle w rest _ (by simp)]
      simp
  rw [hrun]
  simp [St.init]

theorem config_failure_leaves_artifact_witness :
    (buildRun configFails iosRequest [0, 0]).trace =
      [.log "compressing the app...",
        .compress "/project/www" "/project/build",
        .configLoad,
        .callback (some ⟨"ENOENT"⟩) .undefined] ∧
    Event.cleanup "app.zip" ∉ (buildRun configFails iosRequest [0, 0]).trace ∧
    (buildRun configFails iosRequest [0, 0]).pending = [] :=
  config_failure_leaves_artifact configFails iosRequest "app.zip" ⟨"ENOENT"⟩ [0, 0]
    rfl rfl rfl (by decide)

/-- C2 (what the code does): when the put succeeds and the response has `locked` truthy,
`unlockKey` invokes the callback twice: first with the error carrying the platform and
the link, then with `(null, response)`. -/
theorem unlockKey_locked_calls_back_twice (w : World) (o : Options) (cred : Credential)
    (resp : KeyResp) (sched : List Nat) (hv : o.unlockable = true) (hd : o.data = some cred)
    (hr : w.unlock 0 = .ok resp) (hl : resp.locked = true) (hlen : 1 ≤ sched.length) :
    (unlockRun w o sched).trace =
      [.log ("unlocking the " ++ o.platform.toStr ++ " key ("
          ++ ("/keys/" ++ o.platform.toStr ++ "/" ++ o.id.toStr) ++ ")..."),
        .put ("/keys/" ++ o.platform.toStr ++ "/" ++ o.id.toStr) (.data cred),
        .callback (some ⟨"error occurred while unlocking the " ++ o.platform.toStr
          ++ " key: " ++ resp.link⟩) .undefined,
        .callback none (.key resp)] ∧
    (unlockRun w o sched).pending = [] := by
  simp only [Options.unlockable, Bool.and_eq_true] at hv
  obtain ⟨⟨⟨⟨h1, h2⟩, h3⟩, h4⟩, _⟩ := hv
  have hput : ∀ st : St, st.opts = some o →
      unlockKey.onPut .caller (w.unlock 0) st =
        (st.emit (.callback (some ⟨"error occurred while unlocking the " ++ o.platform.toStr
          ++ " key: " ++ resp.link⟩) .undefined)).emit (.callback none (.key resp)) := by
    intro st hst
    simp [unlockKey.onPut, hr, hl, hst, keyCallback, St.emit]
  match sched, hlen with
  | c :: rest, _ =>
    unfold unlockRun
    cases hn : w.unlockNow 0 with
    | true =>
      simp only [unlockKey, unlockKey.put, St.init, h1, h2, h3, h4, hd, hn, St.emit,
        Bool.not_true, Bool.false_eq_true, if_false, if_true]
      rw [hput _ rfl, run_idle w _ _ (by simp [St.emit])]
      simp [St.emit, String.append_assoc]
    | false =>
      simp only [unlockKey, unlockKey.put, St.init, h1, h2, h3, h4, hd, hn, St.emit, St.defer,
        Bool.not_true, Bool.false_eq_true, if_false]
      rw [run_cons, step_single w _ c (.unlock 0 .caller) (by simp) (by simp)]
      simp only [deliver]
      rw [hput _ rfl, run_idle w _ _ (by simp [St.emit])]
      simp [St.emit, String.append_assoc]

theorem unlockKey_locked_calls_back_twice_witness :
    (unlockRun stillLocked unlockIos [0]).trace =
      [.log "unlocking the ios key (/keys/ios/7)...",
        .put "/keys/ios/7" (.data ⟨.undefined, "secret"⟩),
        .callback (some ⟨"error occurred while unlocking the ios key: https://build.phonegap.com/keys"⟩)
          .undefined,
        .callback none (.key ⟨true, "https://build.phonegap.com/keys"⟩)] ∧
    (unlockRun stillLocked unlockIos [0]).pending = [] :=
  unlockKey_locked_calls_back_twice stillLocked unlockIos ⟨.undefined, "secret"⟩
    ⟨true, "https://build.phonegap.com/keys"⟩ [0] rfl rfl rfl rfl (by decide)

theorem keyCallback_frame (cb : KeyCb) (e : Option Err) (data : Data) (st : St) :
    (keyCallback cb e data st).opts = st.opts ∧
    (keyCallback cb e data st).thrown = st.thrown ∧
    (keyCallback cb e data st).pending = st.pending ∧
    (keyCallback cb e data st).unlocks = st.unlocks ∧
    (keyCallback cb e data st).gets = st.gets := by
  cases cb <;> cases e <;> simp [keyCallback, St.emit]

theorem onPut_frame (cb : KeyCb) (r : Except Err KeyResp) (st : St) :
    (unlockKey.onPut cb r st).opts = st.opts ∧
    (unlockKey.onPut cb r st).thrown = st.thrown ∧
    (unlockKey.onPut cb r st).pending = st.pending ∧
    (unlockKey.onPut cb r st).unlocks = st.unlocks ∧
    (unlockKey.onPut cb r st).gets = st.gets := by
  cases r with
  | error e => exact keyCallback_frame cb (some e) .undefined st
  | ok data =>
    simp only [unlockKey.onPut]
    split
    · have h1 := keyCallback_frame cb none (.key data)
        (keyCallback cb (some ⟨"error occurred while unlocking the " ++
          (match st.opts with
            | none => "undefined"
            | some options => options.platform.toStr) ++ " key: " ++ data.link⟩) .undefined st)
      have h2 := keyCallback_frame cb (some ⟨"error occurred while unlocking the " ++
          (match st.opts with
            | none => "undefined"
            | some options => options.platform.toStr) ++ " key: " ++ data.link⟩) .undefined st
      exact ⟨h1.1.trans h2.1, h1.2.1.trans h2.2.1, h1.2.2.1.trans h2.2.2.1,
        h1.2.2.2.1.trans h2.2.2.2.1, h1.2.2.2.2.trans h2.2.2.2.2⟩
    · exact keyCallback_frame cb none (.key data) st

theorem unlockKey_frame (w : World) (cb : KeyCb) (st : St) :
    (unlockKey w (some cb) st).opts = st.opts ∧ (unlockKey w (some cb) st).gets = st.gets := by
  unfold unlockKey
  split
  · simp [St.throw, *]
  · rename_i options hopts
    split_ifs <;> try simp [St.throw]
    split
    · simp [St.throw]
    · simp only [unlockKey.put]
      split
      · simp [(onPut_frame _ _ _).1, (onPut_frame _ _ _).2.2.2.2, St.emit]
      · simp [St.defer, St.emit]

theorem Grows.refl (pe : Event → Bool) (pt : Task → Bool) (st : St) : Grows pe pt st st :=
  ⟨[], [], by simp, by simp, by simp, by simp⟩

theorem Grows.trans {pe : Event → Bool} {pt : Task → Bool} {a b c : St}
    (h1 : Grows pe pt a b) (h2 : Grows pe pt b c) : Grows pe pt a c := by
  obtain ⟨e1, t1, ht1, hp1, he1, hq1⟩ := h1
  obtain ⟨e2, t2, ht2, hp2, he2, hq2⟩ := h2
  refine ⟨e1 ++ e2, t1 ++ t2, by rw [ht2, ht1, List.append_assoc],
    by rw [hp2, hp1, List.append_assoc], ?_, ?_⟩
  · intro e he
    rcases List.mem_append.mp he with h | h
    · exact he1 e h
    · exact he2 e h
  · intro t ht
    rcases List.mem_append.mp ht with h | h
    · exact hq1 t h
    · exact hq2 t h

theorem Grows.of_eq {pe : Event → Bool} {pt : Task → Bool} {a b : St}
    (ht : b.trace = a.trace) (hp : b.pending = a.pending) : Grows pe pt a b :=
  ⟨[], [], by simp [ht], by simp [hp], by simp, by simp⟩

theorem Grows.emit {pe : Event → Bool} {pt : Task → Bool} {a b : St} (h : Grows pe pt a b)
    (e : Event) (he : pe e = true) : Grows pe pt a (b.emit e) :=
  h.trans ⟨[e], [], rfl, by simp [St.emit], by simpa using he, by simp⟩

theorem Grows.defer {pe : Event → Bool} {pt : Task → Bool} {a b : St} (h : Grows pe pt a b)
    (t : Task) (ht : pt t = true) : Grows pe pt a (b.defer t) :=
  h.trans ⟨[], [t], by simp [St.defer], rfl, by simp, by simpa using ht⟩

theorem Grows.throw {pe : Event → Bool} {pt : Task → Bool} {a b : St} (h : Grows pe pt a b)
    (msg : String) : Grows pe pt a (b.throw msg) :=
  h.trans (Grows.of_eq rfl rfl)

theorem Grows.mono {pe qe : Event → Bool} {pt qt : Task → Bool} {a b : St}
    (h : Grows pe pt a b) (he : ∀ e, pe e = true → qe e = true)
    (ht : ∀ t, pt t = true → qt t = true) : Grows qe qt a b := by
  obtain ⟨ex, ts, h1, h2, h3, h4⟩ := h
  exact ⟨ex, ts, h1, h2, fun e hm => he e (h3 e hm), fun t hm => ht t (h4 t hm)⟩

theorem pollCallback_grows (pt : Task → Bool) (cb : PollCb) (e : Option Err) (data : Data)
    (st : St) : Grows Event.afterUpload pt st (pollCallback cb e data st) := by
  cases cb <;> cases e <;> exact (Grows.refl _ _ st).emit _ rfl

theorem keyCallback_grows (pt : Task → Bool) (cb : KeyCb) (e : Option Err) (data : Data)
    (st : St) : Grows Event.unstaged pt st (keyCallback cb e data st) := by
  cases cb <;> cases e <;>
    first
      | exact (Grows.refl _ _ st).emit _ rfl
      | exact Grows.refl _ _ st

theorem onGet_grows (o : PollOptions) (cb : PollCb) (r : Except Err AppRecord) (st : St) :
    Grows Event.afterUpload Task.isLate st (waitForComplete.onGet o cb r st) := by
  unfold waitForComplete.onGet
  split
  · exact pollCallback_grows _ _ _ _ _
  · simp only
    split_ifs
    · exact pollCallback_grows _ _ _ _ _
    · exact pollCallback_grows _ _ _ _ _
    · exact ((Grows.refl _ _ st).emit _ rfl).defer _ rfl

theorem waitForComplete_grows (options : Option PollOptions) (callback : Option PollCb)
    (st : St) : Grows Event.afterUpload Task.isLate st (waitForComplete options callback st) := by
  unfold waitForComplete
  split
  · exact (Grows.refl _ _ st).throw _
  · split_ifs
    · exact (Grows.refl _ _ st).throw _
    · exact (Grows.refl _ _ st).throw _
    · exact (Grows.refl _ _ st).throw _
    · split
      · exact (Grows.refl _ _ st).throw _
      · exact (((Grows.refl _ _ st).emit _ rfl).defer _ rfl).trans (Grows.of_eq rfl rfl)

theorem onPut_grows (cb : KeyCb) (r : Except Err KeyResp) (st : St) :
    Grows Event.unstaged Task.isLate st (unlockKey.onPut cb r st) := by
  unfold unlockKey.onPut
  split
  · exact keyCallback_grows _ _ _ _ _
  · simp only
    split_ifs
    · exact (keyCallback_grows _ _ _ _ _).trans (keyCallback_grows _ _ _ _ _)
    · exact keyCallback_grows _ _ _ _ _

theorem afterUpload_of_unstaged (e : Event) (h : e.unstaged = true) : e.afterUpload = true := by
  simp only [Event.unstaged] at h
  simp [Event.afterUpload, h]

theorem onUpload_grows (filename : String) (id : JsVal) (e : Option Err) (st : St) :
    Grows Event.afterUpload Task.isLate st (build.onUpload filename id e st) := by
  unfold build.onUpload
  split
  · exact ((Grows.refl _ _ st).emit _ rfl).emit _ rfl
  · exact (((Grows.refl _ _ st).emit _ rfl).emit _ rfl).trans (waitForComplete_grows _ _ _)

theorem deliver_late_grows (w : World) (t : Task) (st : St) (ht : t.isLate = true) :
    Grows Event.afterUpload Task.isLate st (deliver w t st) := by
  cases t with
  | compress => simp [Task.isLate] at ht
  | configLoad f => simp [Task.isLate] at ht
  | unlock k cb => exact (onPut_grows _ _ _).mono afterUpload_of_unstaged (fun _ h => h)
  | upload f id => exact onUpload_grows _ _ _ _
  | get k o cb => exact onGet_grows _ _ _ _
  | timer o cb => exact waitForComplete_grows _ _ _

theorem unlockKey_grows (w : World) (cb : KeyCb) (st : St) :
    Grows Event.ofFanOut Task.isLate st (unlockKey w (some cb) st) := by
  unfold unlockKey
  split
  · exact (Grows.refl _ _ st).throw _
  · split_ifs
    · exact (Grows.refl _ _ st).throw _
    · exact (Grows.refl _ _ st).throw _
    · exact (Grows.refl _ _ st).throw _
    · exact (Grows.refl _ _ st).throw _
    · split
      · exact (Grows.refl _ _ st).throw _
      · simp only [unlockKey.put]
        split
        · refine ((((Grows.refl _ _ st).emit _ rfl).emit _ rfl).trans
            (Grows.of_eq rfl rfl)).trans ((onPut_grows _ _ _).mono ?_ (fun _ h => h))
          intro e he
          simp only [Event.unstaged] at he
          simp [Event.ofFanOut, he]
        · exact ((((Grows.refl _ _ st).emit _ rfl).emit _ rfl).trans
            (Grows.of_eq rfl rfl)).defer _ rfl

theorem assignKey_grows (key : String) (st : St) :
    Grows Event.ofFanOut Task.isLate st (build.assignKey key st) := by
  unfold build.assignKey
  split
  · exact (Grows.refl _ _ st).throw _
  · split
    · exact (Grows.refl _ _ st).throw _
    · exact Grows.of_eq rfl rfl

theorem forEachKey_grows (w : World) (names : List String) :
    ∀ st : St, Grows Event.ofFanOut Task.isLate st (build.forEachKey w names st) := by
  induction names with
  | nil => intro st; exact Grows.refl _ _ st
  | cons key rest ih =>
    intro st
    simp only [build.forEachKey]
    split_ifs
    · exact assignKey_grows key st
    · exact (assignKey_grows key st).trans (unlockKey_grows w .build _)
    · exact ((assignKey_grows key st).trans (unlockKey_grows w .build _)).trans (ih _)

theorem step_none (w : World) (st : St) (c : Nat)
    (h : st.pending[c % st.pending.length]? = none) : step w st c = st := by
  unfold step
  split
  · rfl
  · rw [h]

theorem step_deliver (w : World) (st : St) (c : Nat) (t : Task) (hth : st.thrown = none)
    (h : st.pending[c % st.pending.length]? = some t) :
    step w st c
      = deliver w t { st with pending := st.pending.eraseIdx (c % st.pending.length) } := by
  unfold step
  simp [hth, h]

theorem notAfter_of_bounds (a b : Event) (n : Nat) (ha : ∀ x, a.stage = some x → x ≤ n)
    (hb : ∀ y, b.stage = some y → n ≤ y) : a.notAfter b = true := by
  unfold Event.notAfter
  split
  · rename_i x y hx hy
    exact decide_eq_true (Nat.le_trans (ha x hx) (hb y hy))
  · rfl

theorem inOrder_append_bound (tr ex : List Event) (n : Nat) (h1 : inOrder tr) (h2 : inOrder ex)
    (ha : ∀ a ∈ tr, ∀ x, a.stage = some x → x ≤ n)
    (hb : ∀ b ∈ ex, ∀ y, b.stage = some y → n ≤ y) : inOrder (tr ++ ex) := by
  unfold inOrder at *
  rw [List.pairwise_append]
  exact ⟨h1, h2, fun a hma b hmb => notAfter_of_bounds a b n (ha a hma) (hb b hmb)⟩

theorem inOrder_of_same (tr : List Event) (n : Nat)
    (h : ∀ e ∈ tr, ∀ x, e.stage = some x → x = n) : inOrder tr := by
  unfold inOrder
  exact List.Pairwise.imp_of_mem
    (fun {a b} hma hmb _ => notAfter_of_bounds a b n (fun x hx => Nat.le_of_eq (h a hma x hx))
      (fun y hy => Nat.le_of_eq (h b hmb y hy).symm))
    (List.pairwise_of_forall (fun _ _ => trivial))

theorem stage_le_four (e : Event) (x : Nat) (h : e.stage = some x) : x ≤ 4 := by
  unfold Event.stage at h
  split at h <;> simp at h <;> omega

theorem inOrder_append_late (tr ex : List Event) (h : inOrder tr)
    (hex : ∀ e ∈ ex, e.afterUpload = true) : inOrder (tr ++ ex) := by
  have hfour : ∀ e ∈ ex, ∀ x, e.stage = some x → x = 4 := by
    intro e he x hx
    have := hex e he
    simpa [Event.afterUpload, hx] using this
  exact inOrder_append_bound tr ex 4 h (inOrder_of_same ex 4 hfour)
    (fun a _ x hx => stage_le_four a x hx)
    (fun b hb y hy => Nat.le_of_eq (hfour b hb y hy).symm)

theorem fan_stage (fan : List Event) (hfan : ∀ e ∈ fan, e.ofFanOut = true) :
    ∀ e ∈ fan, ∀ x, e.stage = some x → x = 2 := by
  intro e he x hx
  have := hfan e he
  simp only [Event.ofFanOut, hx, Option.isNone_some, Bool.false_or, beq_iff_eq,
    Option.some.injEq] at this
  exact this

theorem inOrder_fan (w : World) (fan : List Event)
    (hfan : ∀ e ∈ fan, e.ofFanOut = true) :
    inOrder (compressCalled w ++ [.configLoad] ++ fan) := by
  refine inOrder_append_bound _ fan 2 ?_ (inOrder_of_same fan 2 (fan_stage fan hfan)) ?_ ?_
  · simp [inOrder, compressCalled, Event.notAfter, Event.stage]
  · intro a ha x hx
    simp only [compressCalled, List.cons_append, List.nil_append, List.mem_cons,
      List.mem_singleton, List.not_mem_nil, or_false] at ha
    rcases ha with h | h | h <;> subst h <;> simp [Event.stage] at hx <;> omega
  · intro b hb y hy
    exact Nat.le_of_eq (fan_stage fan hfan b hb y hy).symm

theorem inOrder_upload (w : World) (fan : List Event) (url filename : String)
    (hfan : ∀ e ∈ fan, e.ofFanOut = true) :
    inOrder (compressCalled w ++ [.configLoad] ++ fan
      ++ [.log "uploading the app...", .put url (.file filename)]) := by
  refine inOrder_append_bound _ _ 3 (inOrder_fan w fan hfan) ?_ ?_ ?_
  · simp [inOrder, Event.notAfter, Event.stage]
  · intro a ha x hx
    simp only [compressCalled, List.cons_append, List.nil_append, List.mem_cons,
      List.mem_append, List.mem_singleton, List.not_mem_nil, or_false] at ha
    rcases ha with h | h | h | h
    · subst h; simp [Event.stage] at hx
    · subst h; simp [Event.stage] at hx; omega
    · subst h; simp [Event.stage] at hx; omega
    · have := fan_stage fan hfan a h x hx
      omega
  · intro b hb y hy
    simp only [List.mem_cons, List.mem_singleton, List.not_mem_nil, or_false] at hb
    rcases hb with h | h
    · subst h; simp [Event.stage] at hy
    · subst h; simp [Event.stage] at hy; omega

theorem unlockKeys_grows (w : World) (st : St) :
    Grows Event.ofFanOut Task.isLate st (build.unlockKeys w st) := by
  unfold build.unlockKeys
  split
  · exact Grows.refl _ _ _
  · exact forEachKey_grows w _ _

theorem orderInv_build (w : World) (options : Option Options) (callback : Bool) :
    OrderInv w (build w options callback) := by
  unfold build
  split
  · exact Or.inr (Or.inr ⟨by simp [St.throw, St.init], by simp [St.throw, St.init, inOrder]⟩)
  · split_ifs
    · exact Or.inr (Or.inr ⟨by simp [St.throw, St.init], by simp [St.throw, St.init, inOrder]⟩)
    · exact Or.inr (Or.inr ⟨by simp [St.throw, St.init], by simp [St.throw, St.init, inOrder]⟩)
    · exact Or.inr (Or.inr ⟨by simp [St.throw, St.init], by simp [St.throw, St.init, inOrder]⟩)
    · exact Or.inr (Or.inr ⟨by simp [St.throw, St.init], by simp [St.throw, St.init, inOrder]⟩)
    · exact Or.inl ⟨by simp [St.emit, St.defer, St.init, compressCalled],
        by simp [St.emit, St.defer, St.init]⟩

theorem orderInv_step (w : World) (st : St) (c : Nat) (h : OrderInv w st) :
    OrderInv w (step w st c) := by
  by_cases hth : st.thrown.isSome = true
  · rw [step_thrown w st c hth]; exact h
  have hnone : st.thrown = none := by
    cases hs : st.thrown with
    | none => rfl
    | some m => simp [hs] at hth
  rcases h with ⟨ht, hp⟩ | ⟨f, ht, hp⟩ | ⟨hlate, hord⟩
  · rw [step_single w st c _ hp hnone]
    simp only [deliver, build.onCompress]
    split
    · refine Or.inr (Or.inr ⟨by simp [St.emit], ?_⟩)
      simp only [St.emit, ht]
      exact inOrder_append_late _ _
        (by simp [inOrder, compressCalled, Event.notAfter, Event.stage])
        (by simp [Event.afterUpload, Event.stage])
    · rename_i filename _
      exact Or.inr (Or.inl ⟨filename, by simp [St.emit, St.defer, ht],
        by simp [St.emit, St.defer]⟩)
  · rw [step_single w st c _ hp hnone]
    simp only [deliver, build.onConfig]
    split
    · refine Or.inr (Or.inr ⟨by simp [St.emit], ?_⟩)
      simp only [St.emit, ht]
      exact inOrder_append_late _ _
        (by simp [inOrder, compressCalled, Event.notAfter, Event.stage])
        (by simp [Event.afterUpload, Event.stage])
    · rename_i id _
      obtain ⟨fan, ts, hgt, hgp, hfan, hts⟩ := unlockKeys_grows w { st with pending := [] }
      have hgt2 : (build.unlockKeys w { st with pending := [] }).trace
          = compressCalled w ++ [.configLoad] ++ fan := by rw [hgt, ← ht]
      have hgp2 : (build.unlockKeys w { st with pending := [] }).pending = ts := by
        rw [hgp]; rfl
      split_ifs
      · refine Or.inr (Or.inr ⟨?_, ?_⟩)
        · rw [hgp2]; exact hts
        · rw [hgt2]; exact inOrder_fan w fan hfan
      · refine Or.inr (Or.inr ⟨?_, ?_⟩)
        · simp only [St.emit, St.defer, hgp2, List.mem_append, List.mem_singleton]
          rintro t (h | h)
          · exact hts t h
          · subst h; rfl
        · simp only [St.emit, St.defer, hgt2]
          have := inOrder_upload w fan ("/apps/" ++ id.toStr) f hfan
          simpa [List.append_assoc] using this
  · cases hget : st.pending[c % st.pending.length]? with
    | none =>
      rw [step_none w st c hget]
      exact Or.inr (Or.inr ⟨hlate, hord⟩)
    | some t =>
      rw [step_deliver w st c t hnone hget]
      have htl : t.isLate = true := hlate t (List.getElem?_mem hget)
      obtain ⟨ex, ts, hgt, hgp, hex, hts⟩ := deliver_late_grows w t
        { st with pending := st.pending.eraseIdx (c % st.pending.length) } htl
      refine Or.inr (Or.inr ⟨?_, ?_⟩)
      · rw [hgp]
        intro t2 ht2
        rcases List.mem_append.mp ht2 with h | h
        · exact hlate t2 (List.mem_of_mem_eraseIdx h)
        · exact hts t2 h
      · rw [hgt]
        exact inOrder_append_late _ _ hord hex

theorem orderInv_run (w : World) (sched : List Nat) :
    ∀ st : St, OrderInv w st → OrderInv w (run w sched st) := by
  induction sched with
  | nil => intro st h; exact h
  | cons c rest ih => intro st h; exact ih _ (orderInv_step w st c h)

theorem inOrder_of_orderInv (w : World) (st : St) (h : OrderInv w st) : inOrder st.trace := by
  rcases h with ⟨ht, _⟩ | ⟨f, ht, _⟩ | ⟨_, hord⟩
  · rw [ht]; simp [inOrder, compressCalled, Event.notAfter, Event.stage]
  · rw [ht]; simp [inOrder, compressCalled, Event.notAfter, Event.stage]
  · exact hord

/-- C3 (amended): in every run of the build function the collaborator calls are issued in
the order compress, config load, key-unlock puts, upload put, status queries: of two
events of the trace the later one never belongs to an earlier stage, so that no
key-unlock put is issued after the upload put, and no status query before it. -/
theorem build_calls_in_order (w : World) (o : Options) (sched : List Nat) :
    (buildRun w o sched).trace.Pairwise fun a b => a.notAfter b = true :=
  inOrder_of_orderInv w _ (orderInv_run w sched _ (orderInv_build w (some o) true))

/-- C3 (as stated, refuted): with the `ios` key 7 in the request, the put to
`/keys/ios/7` is the fifth event of the run and the upload put to `/apps/12` the seventh:
the key-unlock put is issued before the upload put. -/
theorem unlock_put_before_upload_put :
    (buildRun stillLocked iosKeyRequest [0, 0]).trace[4]?
      = some (.put "/keys/ios/7" (.data ⟨.undefined, "secret"⟩)) ∧
    (buildRun stillLocked iosKeyRequest [0, 0]).trace[6]?
      = some (.put "/apps/12" (.file "app.zip")) := by
  decide

theorem Keeps.same (st : St) : Keeps st st := ⟨rfl, rfl⟩

theorem Keeps.andThen {a b c : St} (h1 : Keeps a b) (h2 : Keeps b c) : Keeps a c :=
  ⟨h2.1.trans h1.1, h2.2.trans h1.2⟩

theorem pollCallback_keeps (cb : PollCb) (e : Option Err) (data : Data) (st : St) :
    Keeps st (pollCallback cb e data st) := by
  cases cb <;> cases e <;> exact ⟨rfl, rfl⟩

theorem onGet_keeps (o : PollOptions) (cb : PollCb) (r : Except Err AppRecord) (st : St) :
    Keeps st (waitForComplete.onGet o cb r st) := by
  unfold waitForComplete.onGet
  split
  · exact pollCallback_keeps _ _ _ _
  · simp only
    split_ifs
    · exact pollCallback_keeps _ _ _ _
    · exact pollCallback_keeps _ _ _ _
    · exact ⟨rfl, rfl⟩

theorem waitForComplete_keeps (options : Option PollOptions) (callback : Option PollCb)
    (st : St) : Keeps st (waitForComplete options callback st) := by
  unfold waitForComplete
  split
  · exact ⟨rfl, rfl⟩
  · split_ifs
    · exact ⟨rfl, rfl⟩
    · exact ⟨rfl, rfl⟩
    · exact ⟨rfl, rfl⟩
    · split <;> exact ⟨rfl, rfl⟩

theorem onPut_keeps (cb : KeyCb) (r : Except Err KeyResp) (st : St) :
    Keeps st (unlockKey.onPut cb r st) :=
  ⟨(onPut_frame cb r st).1, (onPut_frame cb r st).2.2.2.1⟩

theorem onUpload_keeps (filename : String) (id : JsVal) (e : Option Err) (st : St) :
    Keeps st (build.onUpload filename id e st) := by
  unfold build.onUpload
  split
  · exact ⟨rfl, rfl⟩
  · exact Keeps.andThen ⟨rfl, rfl⟩ (waitForComplete_keeps _ _ _)

theorem deliver_late_keeps (w : World) (t : Task) (st : St) (ht : t.isLate = true) :
    Keeps st (deliver w t st) := by
  cases t with
  | compress => simp [Task.isLate] at ht
  | configLoad f => simp [Task.isLate] at ht
  | unlock k cb => exact onPut_keeps _ _ _
  | upload f id => exact onUpload_keeps _ _ _ _
  | get k o cb => exact onGet_keeps _ _ _ _
  | timer o cb => exact waitForComplete_keeps _ _ _

theorem unlockKey_cases (w : World) (cb : KeyCb) (st : St) :
    (∃ msg, unlockKey w (some cb) st = st.throw msg) ∨
    (∃ msg url cred, unlockKey w (some cb) st
      = unlockKey.put w url cred cb (st.emit (.log msg))) := by
  unfold unlockKey
  split
  · exact Or.inl ⟨_, rfl⟩
  · split_ifs
    · exact Or.inl ⟨_, rfl⟩
    · exact Or.inl ⟨_, rfl⟩
    · exact Or.inl ⟨_, rfl⟩
    · exact Or.inl ⟨_, rfl⟩
    · split
      · exact Or.inl ⟨_, rfl⟩
      · exact Or.inr ⟨_, _, _, rfl⟩

theorem sum_eraseIdx (f : Task → Nat) (ts : List Task) :
    ∀ (i : Nat) (t : Task), ts[i]? = some t →
      (ts.map f).sum = ((ts.eraseIdx i).map f).sum + f t := by
  induction ts with
  | nil => intro i t h; simp at h
  | cons a rest ih =>
    intro i t h
    cases i with
    | zero =>
      simp only [List.getElem?_cons_zero, Option.some.injEq] at h
      subst h
      simp [Nat.add_comm]
    | succ i =>
      simp only [List.getElem?_cons_succ] at h
      simp only [List.eraseIdx_cons_succ, List.map_cons, List.sum_cons, ih i t h]
      omega

theorem build_cases (w : World) (options : Option Options) (callback : Bool) :
    (∃ msg, build w options callback = (St.init options).throw msg) ∨
    build w options callback =
      (((St.init options).emit (.log "compressing the app...")).emit
        (.compress (pathJoin w.cwd "www") (pathJoin w.cwd "build"))).defer .compress := by
  unfold build
  split
  · exact Or.inl ⟨_, rfl⟩
  · split_ifs
    · exact Or.inl ⟨_, rfl⟩
    · exact Or.inl ⟨_, rfl⟩
    · exact Or.inl ⟨_, rfl⟩
    · exact Or.inl ⟨_, rfl⟩
    · exact Or.inr rfl

theorem deliver_keeps_of_no_keys (w : World) (t : Task) (st : St)
    (h : st.opts.bind Options.keys = none) : Keeps st (deliver w t st) := by
  cases t with
  | compress =>
    simp only [deliver, build.onCompress]
    split <;> exact ⟨rfl, rfl⟩
  | configLoad f =>
    simp only [deliver, build.onConfig]
    split
    · exact ⟨rfl, rfl⟩
    · have hk : build.unlockKeys w st = st := by simp [build.unlockKeys, h]
      rw [hk]
      split <;> exact ⟨rfl, rfl⟩
  | unlock k cb => exact onPut_keeps _ _ _
  | upload f id => exact onUpload_keeps _ _ _ _
  | get k o cb => exact onGet_keeps _ _ _ _
  | timer o cb => exact waitForComplete_keeps _ _ _

theorem step_keeps_of_no_keys (w : World) (st : St) (c : Nat)
    (h : st.opts.bind Options.keys = none) : Keeps st (step w st c) := by
  cases hth : st.thrown with
  | some m => rw [step_thrown w st c (by simp [hth])]; exact Keeps.same st
  | none =>
    cases hget : st.pending[c % st.pending.length]? with
    | none => rw [step_none w st c hget]; exact Keeps.same st
    | some t =>
      rw [step_deliver w st c t hth hget]
      exact Keeps.andThen ⟨rfl, rfl⟩ (deliver_keeps_of_no_keys w t _ h)

theorem run_keeps_of_no_keys (w : World) (sched : List Nat) :
    ∀ st : St, st.opts.bind Options.keys = none → Keeps st (run w sched st) := by
  induction sched with
  | nil => intro st _; exact Keeps.same st
  | cons c rest ih =>
    intro st h
    have h1 := step_keeps_of_no_keys w st c h
    exact h1.andThen (ih _ (by rw [h1.1]; exact h))

theorem build_keeps (w : World) (options : Option Options) (callback : Bool) :
    Keeps (St.init options) (build w options callback) := by
  rcases build_cases w options callback with ⟨msg, heq⟩ | heq <;> rw [heq] <;> exact ⟨rfl, rfl⟩

theorem late_step (w : World) (st : St) (c : Nat) (h : ∀ t ∈ st.pending, t.isLate = true) :
    (∀ t ∈ (step w st c).pending, t.isLate = true) ∧ Keeps st (step w st c) := by
  cases hth : st.thrown with
  | some m => rw [step_thrown w st c (by simp [hth])]; exact ⟨h, Keeps.same st⟩
  | none =>
    cases hget : st.pending[c % st.pending.length]? with
    | none => rw [step_none w st c hget]; exact ⟨h, Keeps.same st⟩
    | some t =>
      rw [step_deliver w st c t hth hget]
      have htl : t.isLate = true := h t (List.getElem?_mem hget)
      obtain ⟨ex, ts, _, hgp, _, hts⟩ := deliver_late_grows w t
        { st with pending := st.pending.eraseIdx (c % st.pending.length) } htl
      refine ⟨?_, Keeps.andThen ⟨rfl, rfl⟩ (deliver_late_keeps w t _ htl)⟩
      rw [hgp]
      intro t2 ht2
      rcases List.mem_append.mp ht2 with h2 | h2
      · exact h t2 (List.mem_of_mem_eraseIdx h2)
      · exact hts t2 h2

theorem late_run (w : World) (sched : List Nat) :
    ∀ st : St, (∀ t ∈ st.pending, t.isLate = true) → Keeps st (run w sched st) := by
  induction sched with
  | nil => intro st _; exact Keeps.same st
  | cons c rest ih =>
    intro st h
    have h1 := late_step w st c h
    exact h1.2.andThen (ih _ h1.1)

theorem run_to_config (w : World) (o : Options) (filename : String) (c1 c2 : Nat)
    (rest : List Nat) (ha : o.accepted = true) (hz : w.compress = .ok filename) :
    buildRun w o (c1 :: c2 :: rest)
      = run w rest (build.onConfig w filename w.config (configCalled w o)) := by
  unfold buildRun
  rw [build_accepted w o ha, run_cons, step_single w _ c1 .compress rfl rfl]
  simp only [deliver, hz, build.onCompress]
  rw [run_cons, step_single w _ c2 (.configLoad filename) rfl rfl]
  rfl

theorem assignKey_afterKey (key : String) (st : St) (o : Options) (ho : st.opts = some o) :
    (build.assignKey key st).opts = some (o.afterKey key) := by
  unfold build.assignKey Options.afterKey
  simp only [ho]
  cases (o.keys.getD []).lookup key with
  | none => exact ho
  | some a => rfl

theorem forEachKey_opts (w : World) (names : List String) :
    ∀ (st : St) (o : Options), st.opts = some o →
      ∃ n, n ≤ names.length ∧ (names ≠ [] → 1 ≤ n) ∧
        (build.forEachKey w names st).opts = some (o.afterKeys (names.take n)) ∧
        ((build.forEachKey w names st).thrown = none → n = names.length) := by
  induction names with
  | nil => intro st o ho; exact ⟨0, Nat.le_refl _, fun h => absurd rfl h, ho, fun _ => rfl⟩
  | cons key rest ih =>
    intro st o ho
    have h1 := assignKey_afterKey key st o ho
    have h2 : (unlockKey w (some .build) (build.assignKey key st)).opts
        = some (o.afterKey key) := by
      rw [(unlockKey_frame w .build _).1, h1]
    simp only [build.forEachKey]
    by_cases ht1 : (build.assignKey key st).thrown.isSome = true
    · rw [if_pos ht1]
      refine ⟨1, by simp, fun _ => Nat.le_refl _, h1, fun hn => ?_⟩
      rw [hn] at ht1
      cases ht1
    · rw [if_neg ht1]
      by_cases ht2 : (unlockKey w (some .build) (build.assignKey key st)).thrown.isSome = true
      · rw [if_pos ht2]
        refine ⟨1, by simp, fun _ => Nat.le_refl _, h2, fun hn => ?_⟩
        rw [hn] at ht2
        cases ht2
      · rw [if_neg ht2]
        obtain ⟨n, hn, _, hopts, hlen⟩ := ih _ _ h2
        refine ⟨n + 1, by simpa using hn, fun _ => Nat.le_add_left _ _, ?_, fun hth => ?_⟩
        · rw [hopts]
          rfl
        · rw [hlen hth]
          rfl

theorem afterKey_frame (o : Options) (k : String) :
    (o.afterKey k).keys = o.keys ∧ (o.afterKey k).api = o.api ∧
    (o.afterKey k).emitter = o.emitter ∧ (o.afterKey k).platforms = o.platforms := by
  unfold Options.afterKey
  cases (o.keys.getD []).lookup k with
  | none => exact ⟨rfl, rfl, rfl, rfl⟩
  | some a => exact ⟨rfl, rfl, rfl, rfl⟩

theorem afterKeys_frame (l : List String) :
    ∀ o : Options, (o.afterKeys l).keys = o.keys ∧ (o.afterKeys l).api = o.api ∧
      (o.afterKeys l).emitter = o.emitter ∧ (o.afterKeys l).platforms = o.platforms := by
  induction l with
  | nil => intro o; exact ⟨rfl, rfl, rfl, rfl⟩
  | cons k rest ih =>
    intro o
    have h1 := ih (o.afterKey k)
    have h2 := afterKey_frame o k
    exact ⟨h1.1.trans h2.1, h1.2.1.trans h2.2.1, h1.2.2.1.trans h2.2.2.1,
      h1.2.2.2.trans h2.2.2.2⟩

theorem afterKey_creds_hit (o : Options) (k : String) (a : Nat)
    (h : (o.keys.getD []).lookup k = some a) :
    (o.afterKey k).creds a = { o.creds a with id := .undefined } := by
  simp [Options.afterKey, h, Options.withKey, deleteId]

theorem afterKey_creds_miss (o : Options) (k : String) (a : Nat)
    (h : (o.keys.getD []).lookup k ≠ some a) : (o.afterKey k).creds a = o.creds a := by
  unfold Options.afterKey
  cases hl : (o.keys.getD []).lookup k with
  | none => rfl
  | some b =>
    have hne : a ≠ b := fun hab => h (by rw [hl, hab])
    simp [Options.withKey, deleteId, hne]

theorem afterKeys_creds_miss (l : List String) :
    ∀ (o : Options) (a : Nat), (∀ k ∈ l, (o.keys.getD []).lookup k ≠ some a) →
      (o.afterKeys l).creds a = o.creds a := by
  induction l with
  | nil => intro o a _; rfl
  | cons k rest ih =>
    intro o a h
    have h1 := ih (o.afterKey k) a (fun k2 hk2 => by
      rw [(afterKey_frame o k).1]
      exact h k2 (List.mem_cons_of_mem _ hk2))
    exact h1.trans (afterKey_creds_miss o k a (h k (List.mem_cons_self _ _)))

theorem afterKeys_creds_hit (l : List String) :
    ∀ (o : Options) (a : Nat), (∃ k ∈ l, (o.keys.getD []).lookup k = some a) →
      (o.afterKeys l).creds a = { o.creds a with id := .undefined } := by
  induction l with
  | nil => intro o a h; obtain ⟨k, hk, _⟩ := h; cases hk
  | cons k rest ih =>
    intro o a h
    by_cases hrest : ∃ k2 ∈ rest, (o.keys.getD []).lookup k2 = some a
    · have h1 := ih (o.afterKey k) a (by rw [(afterKey_frame o k).1]; exact hrest)
      refine h1.trans ?_
      by_cases hk : (o.keys.getD []).lookup k = some a
      · rw [afterKey_creds_hit o k a hk]
      · rw [afterKey_creds_miss o k a hk]
    · have hk : (o.keys.getD []).lookup k = some a := by
        obtain ⟨k2, hk2, hl⟩ := h
        rcases List.mem_cons.mp hk2 with rfl | hin
        · exact hl
        · exact absurd ⟨k2, hin, hl⟩ hrest
      have h1 := afterKeys_creds_miss rest (o.afterKey k) a (fun k2 hk2 hl => by
        rw [(afterKey_frame o k).1] at hl
        exact hrest ⟨k2, hk2, hl⟩)
      exact h1.trans (afterKey_creds_hit o k a hk)

theorem afterKeys_last (o : Options) (init : List String) (k : String) (a : Nat)
    (h : (o.keys.getD []).lookup k = some a) :
    (o.afterKeys (init ++ [k])).platform = .str k ∧
    (o.afterKeys (init ++ [k])).data = some ((o.afterKeys (init ++ [k])).creds a) ∧
    (o.afterKeys (init ++ [k])).id = ((o.afterKeys init).creds a).id := by
  have h2 : ((o.afterKeys init).keys.getD []).lookup k = some a := by
    rw [(afterKeys_frame init o).1]; exact h
  have h1 : o.afterKeys (init ++ [k]) = (o.afterKeys init).withKey k a := by
    simp only [Options.afterKeys, List.foldl_append, List.foldl_cons, List.foldl_nil]
    show Options.afterKey (o.afterKeys init) k = _
    unfold Options.afterKey
    rw [h2]
    rfl
  rw [h1]
  simp [Options.withKey, deleteId]

theorem first_run_keys (w : World) (o : Options) (ks : List (String × Nat))
    (filename : String) (id : JsVal) (sched : List Nat) (ha : o.accepted = true)
    (hk : o.keys = some ks) (hz : w.compress = .ok filename) (hc : w.config = .ok id)
    (hlen : 2 ≤ sched.length) :
    ∃ n, n ≤ ks.length ∧ (ks ≠ [] → 1 ≤ n) ∧
      (buildRun w o sched).opts = some (o.afterKeys ((ks.take n).map Prod.fst)) ∧
      (Event.put ("/apps/" ++ id.toStr) (.file filename) ∈ (buildRun w o sched).trace →
        n = ks.length) := by
  match sched, hlen with
  | c1 :: c2 :: rest, _ =>
    rw [run_to_config w o filename c1 c2 rest ha hz, hc]
    simp only [build.onConfig]
    have hkeys : build.unlockKeys w (configCalled w o)
        = build.forEachKey w (ks.map Prod.fst) (configCalled w o) := by
      simp [build.unlockKeys, configCalled, hk]
    obtain ⟨n, hn, hpos, hopts, hall⟩ :=
      forEachKey_opts w (ks.map Prod.fst) (configCalled w o) o rfl
    obtain ⟨ex, ts, hgt, hgp, hex, hts⟩ :=
      forEachKey_grows w (ks.map Prod.fst) (configCalled w o)
    rw [hkeys]
    rw [List.length_map] at hn hall
    rw [← List.map_take] at hopts
    refine ⟨n, hn, fun hne => hpos (by simpa using hne), ?_⟩
    by_cases hth : (build.forEachKey w (ks.map Prod.fst) (configCalled w o)).thrown.isSome = true
    · rw [if_pos hth, run_thrown w rest _ hth]
      refine ⟨hopts, fun hput => ?_⟩
      rw [hgt] at hput
      rcases List.mem_append.mp hput with h | h
      · simp [configCalled, compressCalled] at h
      · have := hex _ h
        simp [Event.ofFanOut, Event.stage] at this
    · rw [if_neg hth]
      have hlate := late_run w rest
        ((((build.forEachKey w (ks.map Prod.fst) (configCalled w o)).emit
            (.log "uploading the app...")).emit
          (.put ("/apps/" ++ id.toStr) (.file filename))).defer (.upload filename id))
        (by
          simp only [St.emit, St.defer, hgp, List.mem_append, List.mem_singleton]
          rintro t (h | h)
          · rcases h with h | h
            · simp [configCalled] at h
            · exact hts t h
          · subst h; rfl)
      rw [hlate.1]
      refine ⟨hopts, fun _ => hall ?_⟩
      cases hs : (build.forEachKey w (ks.map Prod.fst) (configCalled w o)).thrown with
      | none => rfl
      | some m => rw [hs] at hth; exact absurd rfl hth

theorem second_run_throws (w : World) (o : Options) (k : String) (a : Nat)
    (rest : List (String × Nat)) (filename : String) (id : JsVal) (sched : List Nat)
    (ha : o.accepted = true) (hk : o.keys = some ((k, a) :: rest)) (hkn : k ≠ "")
    (hid : (o.creds a).id = .undefined)
    (hz : w.compress = .ok filename) (hc : w.config = .ok id) (hlen : 2 ≤ sched.length) :
    (buildRun w o sched).thrown = some "missing options.id parameter" ∧
    (buildRun w o sched).trace = compressCalled w ++ [.configLoad] := by
  have hchecks : o.api = true ∧ o.emitter = true := by
    simp only [Options.accepted, Bool.and_eq_true] at ha
    exact ⟨ha.1.1, ha.1.2⟩
  have hkt : (JsVal.str k).truthy = true := by simpa [JsVal.truthy] using hkn
  match sched, hlen with
  | c1 :: c2 :: more, _ =>
    rw [run_to_config w o filename c1 c2 more ha hz, hc]
    have hthrow : build.onConfig w filename (.ok id) (configCalled w o)
        = { configCalled w o with
            opts := some (o.withKey k a), thrown := some "missing options.id parameter" } := by
      simp [build.onConfig, build.unlockKeys, hk, build.forEachKey, build.assignKey,
        unlockKey, Options.withKey, hchecks.1, hchecks.2, hkt, hid, St.throw, configCalled,
        JsVal.truthy, hkn]
    rw [hthrow, run_thrown w more _ (by simp)]
    exact ⟨rfl, rfl⟩

/-- C10 (amended): the build function changes a request that carries keys, and cannot be
run twice on it. In every run on an accepted request in which compression and the config
lookup succeed, the loop over the keys reaches the first `n` keys, all of them when the
upload put is issued (no argument check of `unlockKey` threw) and at least one when there
is a key. It removes the `id` of the credential object of every key it reaches, leaves
every other credential object and `keys`, `api`, `emitter`, `platforms` as they were, and
leaves in `request.platform`, `request.data` and `request.id` the name, the credential
object and the id of the last key reached (the id that object had when the loop came to
it: none, when an earlier key holds the same object). A second run on the same request
object, compression and config lookup succeeding again, throws
`missing options.id parameter` at the first key when that key has a non-empty name: its
trace ends with the config lookup, with no put and no callback. -/
theorem build_removes_key_ids (w1 w2 : World) (o : Options) (ks : List (String × Nat))
    (f1 f2 : String) (id1 id2 : JsVal) (sched1 sched2 : List Nat)
    (ha : o.accepted = true) (hk : o.keys = some ks)
    (hz1 : w1.compress = .ok f1) (hc1 : w1.config = .ok id1) (hl1 : 2 ≤ sched1.length)
    (hz2 : w2.compress = .ok f2) (hc2 : w2.config = .ok id2) (hl2 : 2 ≤ sched2.length) :
    ∃ (o1 : Options) (n : Nat), (buildRun w1 o sched1).opts = some o1 ∧
      n ≤ ks.length ∧ (ks ≠ [] → 1 ≤ n) ∧
      (Event.put ("/apps/" ++ id1.toStr) (.file f1) ∈ (buildRun w1 o sched1).trace →
        n = ks.length) ∧
      (o1.keys = some ks ∧ o1.api = o.api ∧ o1.emitter = o.emitter ∧
        o1.platforms = o.platforms) ∧
      (∀ a, (∃ k ∈ (ks.take n).map Prod.fst, ks.lookup k = some a) →
        o1.creds a = { o.creds a with id := JsVal.undefined }) ∧
      (∀ a, (∀ k ∈ (ks.take n).map Prod.fst, ks.lookup k ≠ some a) →
        o1.creds a = o.creds a) ∧
      (∀ init k a, (ks.take n).map Prod.fst = init ++ [k] → ks.lookup k = some a →
        o1.platform = .str k ∧ o1.data = some (o1.creds a) ∧
        ((∀ k2 ∈ init, ks.lookup k2 ≠ some a) → o1.id = (o.creds a).id) ∧
        ((∃ k2 ∈ init, ks.lookup k2 = some a) → o1.id = .undefined)) ∧
      (∀ k0 a0 rest, ks = (k0, a0) :: rest → k0 ≠ "" →
        (buildRun w2 o1 sched2).thrown = some "missing options.id parameter" ∧
        (buildRun w2 o1 sched2).trace =
          [.log "compressing the app...",
            .compress (pathJoin w2.cwd "www") (pathJoin w2.cwd "build"),
            .configLoad]) := by
  obtain ⟨n, hn, hpos, hopts, hall⟩ := first_run_keys w1 o ks f1 id1 sched1 ha hk hz1 hc1 hl1
  have hks : o.keys.getD [] = ks := by rw [hk]; rfl
  have hfr := afterKeys_frame ((ks.take n).map Prod.fst) o
  have hhit : ∀ a, (∃ k ∈ (ks.take n).map Prod.fst, ks.lookup k = some a) →
      (o.afterKeys ((ks.take n).map Prod.fst)).creds a
        = { o.creds a with id := JsVal.undefined } := by
    intro a h
    exact afterKeys_creds_hit _ o a (by rw [hks]; exact h)
  refine ⟨o.afterKeys ((ks.take n).map Prod.fst), n, hopts, hn, hpos, hall,
    ⟨hfr.1.trans hk, hfr.2⟩, hhit, ?_, ?_, ?_⟩
  · intro a h
    exact afterKeys_creds_miss _ o a (by rw [hks]; exact h)
  · intro init k a hinit hl
    rw [hinit]
    have hlast := afterKeys_last o init k a (by rw [hks]; exact hl)
    refine ⟨hlast.1, hlast.2.1, fun hmiss => ?_, fun hex => ?_⟩
    · rw [hlast.2.2, afterKeys_creds_miss init o a (by rw [hks]; exact hmiss)]
    · rw [hlast.2.2, afterKeys_creds_hit init o a (by rw [hks]; exact hex)]
  · intro k0 a0 rest hcons hk0
    subst hcons
    have hn1 : 1 ≤ n := hpos (by simp)
    have ha1 : (o.afterKeys ((((k0, a0) :: rest).take n).map Prod.fst)).accepted = true := by
      simp only [Options.accepted, hfr.2.1, hfr.2.2.1, hfr.2.2.2]
      exact ha
    have hid : ((o.afterKeys ((((k0, a0) :: rest).take n).map Prod.fst)).creds a0).id
        = .undefined := by
      rw [hhit a0 ⟨k0, ?_, by simp [List.lookup]⟩]
      obtain ⟨m, rfl⟩ : ∃ m, n = m + 1 := ⟨n - 1, by omega⟩
      simp
    exact second_run_throws w2 _ k0 a0 rest f2 id2 sched2 ha1 (hfr.1.trans hk) hk0 hid
      hz2 hc2 hl2

/-- When two platform names hold the same credential object, the `id` removed for the
first key is the one the second key reads: the loop issues the unlock put of `ios` and
throws `missing options.id parameter` at `android`, in the first run. -/
theorem shared_credential_throws :
    (buildRun threeQueries sharedKeyRequest [0, 0]).thrown
      = some "missing options.id parameter" ∧
    (buildRun threeQueries sharedKeyRequest [0, 0]).trace.filter Event.isUnlockPut
      = [.put "/keys/ios/7" (.data ⟨.undefined, "secret"⟩)] := by
  decide

theorem build_removes_key_ids_witness :
    ∃ o1, (buildRun threeQueries twoKeyRequest [0, 0, 0]).opts = some o1 ∧
      (o1.creds 0 = ⟨.undefined, "secret"⟩ ∧ o1.creds 1 = ⟨.undefined, "keystore"⟩) ∧
      (o1.platform = .str "android" ∧ o1.data = some ⟨.undefined, "keystore"⟩ ∧
        o1.id = .num 8) ∧
      (buildRun stillLocked o1 [0, 0]).thrown = some "missing options.id parameter" ∧
      (buildRun stillLocked o1 [0, 0]).trace =
        [.log "compressing the app...", .compress "/project/www" "/project/build",
          .configLoad] := by
  obtain ⟨o1, n, h1, _, _, hall, _, hhit, _, hlast, hsecond⟩ :=
    build_removes_key_ids threeQueries stillLocked twoKeyRequest
      [("ios", 0), ("android", 1)] "app.zip" "app.zip" (.num 12) (.num 12) [0, 0, 0] [0, 0]
      rfl rfl rfl rfl (by decide) rfl rfl (by decide)
  have hn : n = 2 := hall (by decide)
  subst hn
  have h0 := hhit 0 ⟨"ios", by decide, by decide⟩
  have h1b := hhit 1 ⟨"android", by decide, by decide⟩
  have h2 := hlast ["ios"] "android" 1 (by decide) (by decide)
  have h3 := hsecond "ios" 0 [("android", 1)] rfl (by decide)
  refine ⟨o1, h1, ⟨h0, h1b⟩, ⟨h2.1, ?_, h2.2.2.1 (by decide)⟩, h3⟩
  rw [h2.2.1, h1b]
  rfl

/-- C10 (as stated, refuted): three requests with `keys`, compression and config lookup
succeeding. With the keys `ios` (id 0) and `android` (id 8) the first run throws
`missing options.id parameter` at `ios` and the credential of `android` keeps its id.
With an empty `keys` object a second run on the request does not throw and invokes the
callback. With a key under the empty platform name the second run throws
`missing options.platform parameter`. -/
theorem key_ids_not_all_removed :
    ((buildRun threeQueries zeroIdRequest [0, 0]).thrown
        = some "missing options.id parameter" ∧
      ((buildRun threeQueries zeroIdRequest [0, 0]).opts.map fun o => (o.creds 1).id)
        = some (.num 8)) ∧
    (∃ o1, (buildRun threeQueries emptyKeysRequest [0, 0, 0, 0, 0, 0, 0, 0]).opts = some o1 ∧
      (buildRun threeQueries o1 [0, 0, 0, 0, 0, 0, 0, 0]).thrown = none ∧
      (buildRun threeQueries o1 [0, 0, 0, 0, 0, 0, 0, 0]).trace.filter Event.isCallback
        = [.callback none (.app (iosStatus "complete"))]) ∧
    (∃ o1, (buildRun threeQueries unnamedKeyRequest [0, 0]).opts = some o1 ∧
      (buildRun threeQueries o1 [0, 0]).thrown = some "missing options.platform parameter") :=
  ⟨⟨by decide, by decide⟩, ⟨_, rfl, by decide, by decide⟩, ⟨_, rfl, by decide⟩⟩

theorem fanOut_same (st : St) : FanOut 0 st st :=
  ⟨[], by simp, by simp, by simp, rfl, rfl⟩

theorem fanOut_then {a b c : St} {n k : Nat} (h1 : FanOut n a b) (h2 : FanOut k b c) :
    FanOut (n + k) a c := by
  obtain ⟨t1, hp1, hu1, hl1, hg1, hq1⟩ := h1
  obtain ⟨t2, hp2, hu2, hl2, hg2, hq2⟩ := h2
  refine ⟨t1 ++ t2, by rw [hp2, hp1, List.append_assoc], ?_, ?_, hg2.trans hg1,
    hq2.trans hq1⟩
  · intro t ht
    rcases List.mem_append.mp ht with h | h
    · exact hu1 t h
    · exact hu2 t h
  · rw [List.length_append]; omega

theorem fanOut_mono {a b : St} {n k : Nat} (h : FanOut n a b) (hnk : n ≤ k) : FanOut k a b := by
  obtain ⟨ts, hp, hu, hl, hg, hq⟩ := h
  exact ⟨ts, hp, hu, Nat.le_trans hl hnk, hg, hq⟩

theorem unlockKey_fanOut (w : World) (cb : KeyCb) (st : St) :
    FanOut 1 st (unlockKey w (some cb) st) := by
  rcases unlockKey_cases w cb st with ⟨msg, heq⟩ | ⟨msg, url, cred, heq⟩
  · rw [heq]
    exact ⟨[], by simp [St.throw], by simp, by simp, rfl, rfl⟩
  · rw [heq]
    unfold unlockKey.put
    simp only
    split
    · have hf := onPut_frame cb (w.unlock (st.emit (.log msg)).unlocks)
        { (st.emit (.log msg)).emit (.put url (.data cred)) with
          unlocks := (st.emit (.log msg)).unlocks + 1 }
      exact ⟨[], by rw [hf.2.2.1]; simp [St.emit], by simp, by simp, hf.2.2.2.2,
        by simp only [St.platforms, hf.1]; rfl⟩
    · exact ⟨[.unlock (st.emit (.log msg)).unlocks cb], rfl,
        by simp [Task.isUnlock], by simp, rfl, rfl⟩

theorem assignKey_fanOut (key : String) (st : St) :
    FanOut 0 st (build.assignKey key st) := by
  unfold build.assignKey
  split
  · exact ⟨[], by simp [St.throw], by simp, by simp, rfl, rfl⟩
  · rename_i options ho
    split
    · exact ⟨[], by simp [St.throw], by simp, by simp, rfl, rfl⟩
    · exact ⟨[], by simp, by simp, by simp, rfl, by simp [St.platforms, ho]⟩

theorem forEachKey_fanOut (w : World) (names : List String) :
    ∀ st : St, FanOut names.length st (build.forEachKey w names st) := by
  induction names with
  | nil => intro st; exact fanOut_same st
  | cons key rest ih =>
    intro st
    have h1 := assignKey_fanOut key st
    have h2 := unlockKey_fanOut w .build (build.assignKey key st)
    have h3 := ih (unlockKey w (some .build) (build.assignKey key st))
    simp only [build.forEachKey, List.length_cons]
    split_ifs
    · exact fanOut_mono h1 (Nat.zero_le _)
    · exact fanOut_mono (fanOut_then h1 h2) (by omega)
    · exact fanOut_mono (fanOut_then (fanOut_then h1 h2) h3) (by omega)

theorem unlockKeys_fanOut (w : World) (st : St) :
    FanOut st.keyCount st (build.unlockKeys w st) := by
  unfold build.unlockKeys
  cases hk : st.opts.bind Options.keys with
  | none => exact fanOut_mono (fanOut_same st) (Nat.zero_le _)
  | some keys =>
    have := forEachKey_fanOut w (keys.map Prod.fst) st
    simpa [St.keyCount, hk] using this

theorem unlocks_of_mainCount (ts : List Task) (h : mainCount ts = 0) :
    ∀ t ∈ ts, t.isUnlock = true := by
  induction ts with
  | nil => intro t ht; simp at ht
  | cons a rest ih =>
    simp only [mainCount, List.map_cons, List.sum_cons] at h
    intro t ht
    rcases List.mem_cons.mp ht with h1 | h1
    · subst h1
      by_contra hc
      simp [hc] at h
    · exact ih (by simp only [mainCount]; omega) t h1

theorem mainCount_unlocks (ts : List Task) (h : ∀ t ∈ ts, t.isUnlock = true) :
    mainCount ts = 0 := by
  induction ts with
  | nil => rfl
  | cons a rest ih =>
    simp only [mainCount, List.map_cons, List.sum_cons, h a (List.mem_cons_self _ _), if_true,
      Nat.zero_add]
    exact ih (fun t ht => h t (List.mem_cons_of_mem _ ht))

theorem mainCount_append (a b : List Task) : mainCount (a ++ b) = mainCount a + mainCount b := by
  simp [mainCount, List.map_append, List.sum_append]

theorem turns_unlocks (m g k : Nat) (ts : List Task) (h : ∀ t ∈ ts, t.isUnlock = true) :
    (ts.map (Task.turns m g k)).sum = ts.length := by
  induction ts with
  | nil => rfl
  | cons a rest ih =>
    have ha := h a (List.mem_cons_self _ _)
    have hr := ih (fun t ht => h t (List.mem_cons_of_mem _ ht))
    cases a <;> simp [Task.isUnlock] at ha
    simp [Task.turns, hr, Nat.add_comm]

theorem fits_unlock (m : Nat) (ps : Option (List String)) (st : St) (t : Task)
    (h : t.isUnlock = true) : t.fits m ps st := by
  cases t <;> simp [Task.isUnlock] at h
  trivial

theorem turns_pos (m g k : Nat) (t : Task) : 0 < t.turns m g k := by
  cases t <;> simp [Task.turns]

theorem pending_of_turnsLeft (m : Nat) (st : St) (h : turnsLeft m st = 0) : st.pending = [] := by
  cases hp : st.pending with
  | nil => rfl
  | cons a rest =>
    simp only [turnsLeft, hp, List.map_cons, List.sum_cons] at h
    have := turns_pos m st.gets st.keyCount a
    omega

theorem getElem_of_pending (st : St) (c : Nat) (h : st.pending ≠ []) :
    ∃ t, st.pending[c % st.pending.length]? = some t := by
  have hlen : 0 < st.pending.length := List.length_pos.mpr h
  have hb : c % st.pending.length < st.pending.length := Nat.mod_lt _ hlen
  exact ⟨st.pending[c % st.pending.length], List.getElem?_eq_getElem hb⟩

theorem fits_congr (m : Nat) (ps : Option (List String)) (st st2 : St) (t : Task)
    (hg : st2.gets = st.gets) (hpl : st2.platforms = st.platforms) (h : t.fits m ps st) :
    t.fits m ps st2 := by
  cases t <;> simp only [Task.fits, hg, hpl] at h ⊢ <;> exact h

theorem ends_main (m : Nat) (ps : Option (List String)) (st st2 : St) (i : Nat) (t : Task)
    (new : List Task) (hinv : EndInv m ps st) (hget : st.pending[i]? = some t)
    (hmain : t.isUnlock = false)
    (hp : st2.pending = st.pending.eraseIdx i ++ new)
    (hfit : ∀ u ∈ new, u.fits m ps st2) (hcount : mainCount new ≤ 1)
    (hturns : (new.map (Task.turns m st2.gets st2.keyCount)).sum
      < t.turns m st.gets st.keyCount) :
    EndInv m ps st2 ∧ turnsLeft m st2 < turnsLeft m st := by
  have hsum := sum_eraseIdx (fun t => if t.isUnlock then 0 else 1) st.pending i t hget
  simp only [hmain, Bool.false_eq_true, if_false] at hsum
  have hzero : mainCount (st.pending.eraseIdx i) = 0 := by
    have := hinv.2
    simp only [mainCount] at this ⊢
    omega
  have hun := unlocks_of_mainCount _ hzero
  refine ⟨⟨?_, ?_⟩, ?_⟩
  · intro u hu
    rw [hp] at hu
    rcases List.mem_append.mp hu with h | h
    · exact fits_unlock m ps st2 u (hun u h)
    · exact hfit u h
  · rw [hp, mainCount_append, hzero]
    omega
  · have h1 := sum_eraseIdx (Task.turns m st.gets st.keyCount) st.pending i t hget
    simp only [turnsLeft, hp, List.map_append, List.sum_append]
    rw [turns_unlocks _ _ _ _ hun]
    rw [h1, turns_unlocks _ _ _ _ hun]
    omega

theorem ends_unlock (m : Nat) (ps : Option (List String)) (st st2 : St) (i : Nat) (t : Task)
    (hinv : EndInv m ps st) (hget : st.pending[i]? = some t)
    (hp : st2.pending = st.pending.eraseIdx i) (hg : st2.gets = st.gets)
    (hpl : st2.platforms = st.platforms) (hk : st2.keyCount = st.keyCount) :
    EndInv m ps st2 ∧ turnsLeft m st2 < turnsLeft m st := by
  have hsum := sum_eraseIdx (fun t => if t.isUnlock then 0 else 1) st.pending i t hget
  have h1 := sum_eraseIdx (Task.turns m st.gets st.keyCount) st.pending i t hget
  have hpos := turns_pos m st.gets st.keyCount t
  refine ⟨⟨?_, ?_⟩, ?_⟩
  · intro u hu
    rw [hp] at hu
    exact fits_congr m ps st st2 u hg hpl (hinv.1 u (List.mem_of_mem_eraseIdx hu))
  · have := hinv.2
    simp only [mainCount, hp] at this ⊢
    omega
  · simp only [turnsLeft, hp, hg, hk]
    omega

theorem waitForComplete_some (o : PollOptions) (cb : PollCb) (st : St) :
    (∃ msg, waitForComplete (some o) (some cb) st = st.throw msg) ∨
    waitForComplete (some o) (some cb) st =
      { (st.emit (.get ("/apps/" ++ o.id.toStr))).defer (.get st.gets o cb) with
        gets := st.gets + 1 } := by
  simp only [waitForComplete]
  split_ifs
  · exact Or.inl ⟨_, rfl⟩
  · exact Or.inl ⟨_, rfl⟩
  · exact Or.inl ⟨_, rfl⟩
  · exact Or.inr rfl

theorem ends_query (m : Nat) (ps : Option (List String)) (st : St) (i : Nat) (t : Task)
    (o : PollOptions) (cb : PollCb) (st1 : St) (hinv : EndInv m ps st)
    (hget : st.pending[i]? = some t) (hmain : t.isUnlock = false)
    (hp : st1.pending = st.pending.eraseIdx i) (hg : st1.gets = st.gets)
    (hle : st.gets ≤ m) (ho : o.platforms = ps)
    (hturns : 2 * (m - st.gets) + 2 ≤ t.turns m st.gets st.keyCount) :
    (waitForComplete (some o) (some cb) st1).thrown.isSome = true ∨
    (EndInv m ps (waitForComplete (some o) (some cb) st1) ∧
      turnsLeft m (waitForComplete (some o) (some cb) st1) < turnsLeft m st) := by
  rcases waitForComplete_some o cb st1 with ⟨msg, heq⟩ | heq
  · left
    rw [heq]
    rfl
  · right
    rw [heq]
    refine ends_main m ps st _ i t [.get st1.gets o cb] hinv hget hmain ?_ ?_ ?_ ?_
    · simp [St.emit, St.defer, hp]
    · intro u hu
      simp only [List.mem_singleton] at hu
      subst hu
      simp only [Task.fits, hg]
      exact ⟨trivial, hle, ho⟩
    · simp [mainCount, Task.isUnlock]
    · show 2 * (m - st1.gets) + 1 + 0 < t.turns m st.gets st.keyCount
      rw [hg]
      omega

theorem ends_step (w : World) (m : Nat) (ps : Option (List String)) (st : St) (c : Nat)
    (hterm : ∀ po : PollOptions, po.platforms = ps → isTerminal po (w.get m) = true)
    (hinv : EndInv m ps st) (hth : st.thrown = none) (hne : st.pending ≠ []) :
    (step w st c).thrown.isSome = true ∨
    (EndInv m ps (step w st c) ∧ turnsLeft m (step w st c) < turnsLeft m st) := by
  obtain ⟨t, hget⟩ := getElem_of_pending st c hne
  rw [step_deliver w st c t hth hget]
  have hfit := hinv.1 t (List.getElem?_mem hget)
  cases t with
  | unlock k cb =>
    right
    have hf := onPut_frame cb (w.unlock k)
      { st with pending := st.pending.eraseIdx (c % st.pending.length) }
    exact ends_unlock m ps st _ _ _ hinv hget hf.2.2.1 hf.2.2.2.2
      (by simp only [St.platforms, deliver]; rw [hf.1])
      (by simp only [St.keyCount, deliver]; rw [hf.1])
  | compress =>
    right
    simp only [deliver, build.onCompress]
    split
    · exact ends_main m ps st _ _ _ [] hinv hget rfl (by simp [St.emit]) (by simp)
        (by simp [mainCount]) (by simp [Task.turns])
    · rename_i filename _
      refine ends_main m ps st _ _ _ [.configLoad filename] hinv hget rfl
        (by simp [St.emit, St.defer]) ?_ (by simp [mainCount, Task.isUnlock]) ?_
      · intro u hu
        simp only [List.mem_singleton] at hu
        subst hu
        exact hfit
      · simp only [List.map_cons, List.map_nil, List.sum_cons, List.sum_nil, Task.turns]
        have h1 : (((St.emit { st with pending := st.pending.eraseIdx (c % st.pending.length) }
          Event.configLoad).defer (Task.configLoad filename)).gets) = st.gets := rfl
        have h2 : (((St.emit { st with pending := st.pending.eraseIdx (c % st.pending.length) }
          Event.configLoad).defer (Task.configLoad filename)).keyCount) = st.keyCount := rfl
        rw [h1, h2]
        omega
  | configLoad f =>
    simp only [deliver, build.onConfig]
    split
    · right
      exact ends_main m ps st _ _ _ [] hinv hget rfl (by simp [St.emit]) (by simp)
        (by simp [mainCount]) (by simp [Task.turns])
    · rename_i id _
      obtain ⟨ts, hP, hPu, hPl, hPg, hPp⟩ := unlockKeys_fanOut w
        { st with pending := st.pending.eraseIdx (c % st.pending.length) }
      by_cases h1 : (build.unlockKeys w
          { st with pending := st.pending.eraseIdx (c % st.pending.length) }).thrown.isSome = true
      · left
        rw [if_pos h1]
        exact h1
      · right
        rw [if_neg h1]
        refine ends_main m ps st _ _ _ (ts ++ [.upload f id]) hinv hget rfl
          (by simp [St.emit, St.defer, hP]) ?_ ?_ ?_
        · intro u hu
          rcases List.mem_append.mp hu with h | h
          · exact fits_unlock m ps _ u (hPu u h)
          · simp only [List.mem_singleton] at h
            subst h
            exact ⟨by simpa [St.emit, St.defer, hPg] using hfit.1,
              by simpa [St.emit, St.defer, St.platforms] using hPp.trans hfit.2⟩
        · rw [mainCount_append, mainCount_unlocks ts hPu]
          simp [mainCount, Task.isUnlock]
        · simp only [List.map_append, List.sum_append, turns_unlocks _ _ _ ts hPu,
            List.map_cons, List.map_nil, List.sum_cons, List.sum_nil, Task.turns]
          have h2 : ((((build.unlockKeys w
              { st with pending := st.pending.eraseIdx (c % st.pending.length) }).emit
              (Event.log "uploading the app...")).emit
              (Event.put ("/apps/" ++ id.toStr) (Form.file f))).defer
              (Task.upload f id)).gets = st.gets := hPg
          have h3 : ts.length ≤ st.keyCount := hPl
          rw [h2]
          omega
  | upload f id =>
    simp only [deliver, build.onUpload]
    split
    · right
      exact ends_main m ps st _ _ _ [] hinv hget rfl (by simp [St.emit]) (by simp)
        (by simp [mainCount]) (by simp [Task.turns])
    · cases ho : st.opts with
      | none =>
        left
        simp [St.emit, ho, waitForComplete, St.throw]
      | some options =>
        have hpl : options.platforms = ps := by
          have := hfit.2
          simpa [St.platforms, ho] using this
        simp only [St.emit, ho, Option.map_some']
        exact ends_query m ps st _ _ _ _ _ hinv hget rfl rfl rfl hfit.1 hpl
          (by simp [Task.turns])
  | timer o cb =>
    simp only [deliver]
    exact ends_query m ps st _ _ o cb _ hinv hget rfl rfl rfl hfit.1 hfit.2
      (by simp [Task.turns])
  | get k o cb =>
    right
    simp only [deliver]
    cases hk : isTerminal o (w.get k) with
    | true =>
      rw [onGet_terminal o cb _ _ hk]
      exact ends_main m ps st _ _ _ [] hinv hget rfl (by simp [St.emit]) (by simp)
        (by simp [mainCount]) (by simp [Task.turns])
    | false =>
      rw [onGet_waiting o cb _ _ hk]
      have hkm : k ≠ m := by
        rintro rfl
        rw [hterm o hfit.2.2] at hk
        cases hk
      refine ends_main m ps st _ _ _ [.timer o cb] hinv hget rfl
        (by simp [St.emit, St.defer]) ?_ (by simp [mainCount, Task.isUnlock]) ?_
      · intro u hu
        simp only [List.mem_singleton] at hu
        subst hu
        have := hfit.1
        have := hfit.2.1
        exact ⟨by simp only [St.emit, St.defer]; omega, hfit.2.2⟩
      · simp only [List.map_cons, List.map_nil, List.sum_cons, List.sum_nil, Task.turns,
          St.emit, St.defer]
        have := hfit.1
        have := hfit.2.1
        omega

theorem ends_run (w : World) (m : Nat) (ps : Option (List String))
    (hterm : ∀ po : PollOptions, po.platforms = ps → isTerminal po (w.get m) = true) :
    ∀ (sched : List Nat) (st : St), EndInv m ps st → turnsLeft m st ≤ sched.length →
      (run w sched st).pending = [] ∨ (run w sched st).thrown.isSome = true := by
  intro sched
  induction sched with
  | nil =>
    intro st _ hlen
    exact Or.inl (pending_of_turnsLeft m st (Nat.le_zero.mp hlen))
  | cons c rest ih =>
    intro st hinv hlen
    rw [run_cons]
    cases hth : st.thrown with
    | some msg =>
      right
      rw [step_thrown w st c (by simp [hth]), run_thrown w rest st (by simp [hth])]
      simp [hth]
    | none =>
      by_cases hne : st.pending = []
      · left
        rw [step_idle w st c hne, run_idle w rest st hne]
        exact hne
      · rcases ends_step w m ps st c hterm hinv hth hne with h | ⟨h1, h2⟩
        · right
          rw [run_thrown w rest _ h]
          exact h
        · exact ih _ h1 (by simp only [List.length_cons] at hlen; omega)

theorem build_run_ends (w : World) (o : Options) (m : Nat) (sched : List Nat)
    (hterm : ∀ po : PollOptions, po.platforms = o.platforms → isTerminal po (w.get m) = true)
    (hlen : 2 * m + 4 + (o.keys.getD []).length ≤ sched.length) :
    (buildRun w o sched).pending = [] ∨ (buildRun w o sched).thrown.isSome = true := by
  unfold buildRun
  rcases build_cases w (some o) true with ⟨msg, heq⟩ | heq
  · right
    rw [heq, run_thrown w sched _ (by simp [St.throw])]
    simp [St.throw]
  · rw [heq]
    refine ends_run w m o.platforms hterm sched _ ⟨?_, ?_⟩ ?_
    · intro t ht
      simp only [St.emit, St.defer, St.init, List.nil_append, List.mem_singleton] at ht
      subst ht
      exact ⟨Nat.zero_le m, rfl⟩
    · simp [mainCount, St.emit, St.defer, St.init, Task.isUnlock]
    · simp only [turnsLeft, St.emit, St.defer, St.init, List.nil_append, List.map_cons,
        List.map_nil, List.sum_cons, List.sum_nil, Task.turns, St.keyCount, Option.bind]
      omega

theorem unlockPuts_append (a b : List Event) :
    unlockPuts (a ++ b) = unlockPuts a + unlockPuts b := by
  simp [unlockPuts, List.filter_append]

theorem unlockPuts_none (ex : List Event) (h : ∀ e ∈ ex, e.isUnlockPut = false) :
    unlockPuts ex = 0 := by
  simp only [unlockPuts, List.length_eq_zero, List.filter_eq_nil_iff]
  intro e he
  simp [h e he]

theorem synced_of_grows {pe : Event → Bool} {pt : Task → Bool} {a b : St}
    (hg : Grows pe pt a b) (hu : b.unlocks = a.unlocks)
    (hpe : ∀ e, pe e = true → e.isUnlockPut = false) (h : Synced a) : Synced b := by
  obtain ⟨ex, ts, ht, _, hex, _⟩ := hg
  unfold Synced at *
  rw [hu, ht, unlockPuts_append, unlockPuts_none ex (fun e he => hpe e (hex e he)), h]
  rfl

theorem not_unlockPut_of_afterUpload (e : Event) (h : e.afterUpload = true) :
    e.isUnlockPut = false := by
  cases e with
  | put url form => cases form <;> simp [Event.afterUpload, Event.stage] at h ⊢
  | _ => rfl

theorem not_unlockPut_of_unstaged (e : Event) (h : e.unstaged = true) :
    e.isUnlockPut = false :=
  not_unlockPut_of_afterUpload e (afterUpload_of_unstaged e h)

theorem synced_put (w : World) (url : String) (cred : Credential) (cb : KeyCb) (st : St)
    (h : Synced st) : Synced (unlockKey.put w url cred cb st) := by
  have hissue : Synced { st.emit (.put url (.data cred)) with unlocks := st.unlocks + 1 } := by
    unfold Synced at *
    simp only [St.emit, unlockPuts_append, h]
    rfl
  unfold unlockKey.put
  simp only
  split
  · exact synced_of_grows (onPut_grows _ _ _) (onPut_frame _ _ _).2.2.2.1
      not_unlockPut_of_unstaged hissue
  · exact hissue

theorem synced_unlockKey (w : World) (cb : KeyCb) (st : St) (h : Synced st) :
    Synced (unlockKey w (some cb) st) := by
  rcases unlockKey_cases w cb st with ⟨msg, heq⟩ | ⟨msg, url, cred, heq⟩
  · rw [heq]; exact h
  · rw [heq]
    refine synced_put w url cred cb _ ?_
    unfold Synced at *
    simp only [St.emit, unlockPuts_append, h]
    rfl

theorem synced_assignKey (key : String) (st : St) (h : Synced st) :
    Synced (build.assignKey key st) := by
  unfold build.assignKey
  split
  · exact h
  · split <;> exact h

theorem synced_forEachKey (w : World) (names : List String) :
    ∀ st : St, Synced st → Synced (build.forEachKey w names st) := by
  induction names with
  | nil => intro st h; exact h
  | cons key rest ih =>
    intro st h
    have h1 := synced_assignKey key st h
    have h2 := synced_unlockKey w .build _ h1
    simp only [build.forEachKey]
    split_ifs
    · exact h1
    · exact h2
    · exact ih _ h2

theorem synced_emit (st : St) (e : Event) (h : Synced st) (he : e.isUnlockPut = false) :
    Synced (st.emit e) := by
  unfold Synced at *
  simp only [St.emit, unlockPuts_append, h]
  simp [unlockPuts, he]

theorem synced_deliver (w : World) (t : Task) (st : St) (h : Synced st) :
    Synced (deliver w t st) := by
  cases t with
  | compress =>
    simp only [deliver, build.onCompress]
    split
    · exact synced_emit _ _ h rfl
    · exact synced_emit _ _ h rfl
  | configLoad f =>
    simp only [deliver, build.onConfig]
    split
    · exact synced_emit _ _ h rfl
    · have hk : Synced (build.unlockKeys w st) := by
        unfold build.unlockKeys
        split
        · exact h
        · exact synced_forEachKey w _ st h
      split_ifs
      · exact hk
      · exact synced_emit _ (.put _ (.file f)) (synced_emit _ (.log _) hk rfl) rfl
  | unlock k cb =>
    exact synced_of_grows (deliver_late_grows w (.unlock k cb) st rfl)
      (deliver_late_keeps w (.unlock k cb) st rfl).2 not_unlockPut_of_afterUpload h
  | upload f id =>
    exact synced_of_grows (deliver_late_grows w (.upload f id) st rfl)
      (deliver_late_keeps w (.upload f id) st rfl).2 not_unlockPut_of_afterUpload h
  | get k o cb =>
    exact synced_of_grows (deliver_late_grows w (.get k o cb) st rfl)
      (deliver_late_keeps w (.get k o cb) st rfl).2 not_unlockPut_of_afterUpload h
  | timer o cb =>
    exact synced_of_grows (deliver_late_grows w (.timer o cb) st rfl)
      (deliver_late_keeps w (.timer o cb) st rfl).2 not_unlockPut_of_afterUpload h

theorem synced_step (w : World) (st : St) (c : Nat) (h : Synced st) : Synced (step w st c) := by
  cases hth : st.thrown with
  | some m => rw [step_thrown w st c (by simp [hth])]; exact h
  | none =>
    cases hget : st.pending[c % st.pending.length]? with
    | none => rw [step_none w st c hget]; exact h
    | some t =>
      rw [step_deliver w st c t hth hget]
      exact synced_deliver w t _ h

theorem synced_run (w : World) (sched : List Nat) :
    ∀ st : St, Synced st → Synced (run w sched st) := by
  induction sched with
  | nil => intro st h; exact h
  | cons c rest ih => intro st h; exact ih _ (synced_step w st c h)

theorem synced_buildRun (w : World) (o : Options) (sched : List Nat) :
    (buildRun w o sched).unlocks = unlockPuts (buildRun w o sched).trace := by
  refine synced_run w sched _ ?_
  rcases build_cases w (some o) true with ⟨msg, heq⟩ | heq <;> rw [heq] <;> rfl

theorem books_emit (w : World) (ps : Option (List String)) (names : List String) (c : Nat)
    (x : List Nat) (st : St) (e : Event) (he : e.isCallback = false)
    (h : Books w ps names c x st) : Books w ps names c x (st.emit e) := by
  obtain ⟨⟨main, led, h1, h2, h3, h4, h5⟩, hs1, hs2⟩ := h
  refine ⟨⟨main, led, fun ev => ?_, h2, h3, h4, h5⟩, hs1, hs2⟩
  simpa [St.emit, List.filter_append, he] using h1 ev

theorem books_outcome (w : World) (ps : Option (List String)) (names : List String)
    (x : List Nat) (st : St) (e : Event) (he : e.isCallback = true) (ho : Outcome w ps e)
    (hth : st.thrown = none) (h : Books w ps names 1 x st) :
    Books w ps names 0 x (st.emit e) := by
  obtain ⟨⟨main, led, h1, h2, h3, h4, h5⟩, hs1, hs2⟩ := h
  refine ⟨⟨e :: main, led, fun ev => ?_, ?_, h3, ?_, h5⟩, hs1, hs2⟩
  · have := h1 ev
    simp only [St.emit, List.filter_append, List.filter_cons, he, List.filter_nil,
      List.count_append, List.count_cons, List.count_nil, if_true] at this ⊢
    omega
  · intro ev hev
    rcases List.mem_cons.mp hev with rfl | hin
    · exact ho
    · exact h2 ev hin
  · simp only [hth, Option.isSome_none, Bool.false_eq_true, if_false] at h4
    simp only [St.emit, hth, Option.isSome_none, Bool.false_eq_true, if_false,
      List.length_cons]
    omega

theorem mainCount_single (t : Task) (ht : t.isUnlock = false) : mainCount [t] = 1 := by
  simp [mainCount, ht]

theorem pendingFailed_append (w : World) (a b : List Task) :
    pendingFailed w (a ++ b) = pendingFailed w a ++ pendingFailed w b := by
  simp [pendingFailed]

theorem failed_of_main (w : World) (t : Task) (ht : t.isUnlock = false) : t.failed w = [] := by
  cases t <;> first | rfl | cases ht

theorem books_defer (w : World) (ps : Option (List String)) (names : List String)
    (x : List Nat) (st : St) (t : Task) (ht : t.isUnlock = false) (hb : t.ofBuild ps)
    (hth : st.thrown = none) (h : Books w ps names 1 x st) :
    Books w ps names 0 x (st.defer t) := by
  obtain ⟨⟨main, led, h1, h2, h3, h4, h5⟩, hs1, hs2⟩ := h
  refine ⟨⟨main, led, h1, h2, h3, ?_, fun k => ?_⟩, ?_, hs2⟩
  · simp only [hth, Option.isSome_none, Bool.false_eq_true, if_false] at h4
    simp only [St.defer, hth, Option.isSome_none, Bool.false_eq_true, if_false,
      mainCount_append, mainCount_single t ht]
    omega
  · have := h5 k
    simp only [St.defer, pendingFailed_append, List.count_append]
    simp only [pendingFailed, List.map_cons, List.map_nil, failed_of_main w t ht,
      List.flatten_cons, List.flatten_nil, List.append_nil, List.count_nil] at this ⊢
    omega
  · intro t2 ht2
    rcases List.mem_append.mp ht2 with h | h
    · exact hs1 t2 h
    · rw [List.mem_singleton.mp h]
      exact hb

theorem books_throw (w : World) (ps : Option (List String)) (names : List String) (c : Nat)
    (x : List Nat) (st : St) (msg : String) (h : Books w ps names 1 x st) :
    Books w ps names c x (st.throw msg) := by
  obtain ⟨⟨main, led, h1, h2, h3, h4, h5⟩, hs1, hs2⟩ := h
  refine ⟨⟨main, led, h1, h2, h3, ?_, h5⟩, hs1, hs2⟩
  simp only [ite_self] at h4
  simpa [St.throw] using h4

theorem books_of_thrown (w : World) (ps : Option (List String)) (names : List String)
    (c c2 : Nat) (x : List Nat) (st : St) (hth : st.thrown.isSome = true)
    (h : Books w ps names c x st) : Books w ps names c2 x st := by
  obtain ⟨⟨main, led, h1, h2, h3, h4, h5⟩, hs1, hs2⟩ := h
  refine ⟨⟨main, led, h1, h2, h3, ?_, h5⟩, hs1, hs2⟩
  simpa [hth] using h4

theorem books_congr (w : World) (ps : Option (List String)) (names : List String) (c : Nat)
    (x : List Nat) (a b : St) (ho : b.opts = a.opts) (ht : b.trace = a.trace)
    (hp : b.pending = a.pending) (hu : b.unlocks = a.unlocks) (hth : b.thrown = a.thrown)
    (h : Books w ps names c x a) : Books w ps names c x b := by
  unfold Books
  rw [ho, ht, hp, hu, hth]
  exact h

theorem books_unlock_error (w : World) (ps : Option (List String)) (names : List String)
    (c k : Nat) (st : St) (e : Event) (he : e.isCallback = true)
    (hev : e ∈ unlockErrors w names k) (h : Books w ps names c [k] st) :
    Books w ps names c [] (st.emit e) := by
  obtain ⟨⟨main, led, h1, h2, h3, h4, h5⟩, hs1, hs2⟩ := h
  refine ⟨⟨main, (k, e) :: led, fun ev => ?_, h2, ?_, h4, fun k2 => ?_⟩, hs1, hs2⟩
  · have := h1 ev
    simp only [St.emit, List.filter_append, List.filter_cons, he, List.filter_nil,
      List.count_append, List.count_cons, List.count_nil, if_true, List.map_cons] at this ⊢
    omega
  · intro p hp
    rcases List.mem_cons.mp hp with rfl | hin
    · exact hev
    · exact h3 p hin
  · have := h5 k2
    simp only [St.emit, List.map_cons, List.count_cons, List.count_nil] at this ⊢
    omega

theorem books_defer_unlock (w : World) (ps : Option (List String)) (names : List String)
    (c k : Nat) (st : St) (h : Books w ps names c (failedPut w k) st) :
    Books w ps names c [] (st.defer (.unlock k .build)) := by
  obtain ⟨⟨main, led, h1, h2, h3, h4, h5⟩, hs1, hs2⟩ := h
  refine ⟨⟨main, led, h1, h2, h3, ?_, fun k2 => ?_⟩, ?_, hs2⟩
  · simpa [St.defer, mainCount_append, mainCount, Task.isUnlock] using h4
  · have := h5 k2
    simp only [St.defer, pendingFailed_append, List.count_append]
    simp only [pendingFailed, List.map_cons, List.map_nil, Task.failed,
      List.flatten_cons, List.flatten_nil, List.append_nil, List.count_nil] at this ⊢
    omega
  · intro t2 ht2
    rcases List.mem_append.mp ht2 with h | h
    · exact hs1 t2 h
    · rw [List.mem_singleton.mp h]
      rfl

theorem failedPuts_succ (w : World) (n : Nat) :
    failedPuts w (n + 1) = failedPuts w n ++ failedPut w n := by
  simp only [failedPuts, failedPut, List.range_succ, List.filter_append, List.filter_cons,
    List.filter_nil]

theorem books_issue (w : World) (ps : Option (List String)) (names : List String)
    (c : Nat) (st : St) (hp : ∃ o, st.opts = some o ∧ ∃ p ∈ names, o.platform = .str p)
    (h : Books w ps names c [] st) :
    Books w ps names c (failedPut w st.unlocks) { st with unlocks := st.unlocks + 1 } := by
  obtain ⟨⟨main, led, h1, h2, h3, h4, h5⟩, hs1, o, ho, hps, hnames, _⟩ := h
  refine ⟨⟨main, led, h1, h2, h3, h4, fun k => ?_⟩, hs1, o, ho, hps, hnames, Or.inr ?_⟩
  · have := h5 k
    simp only [failedPuts_succ, List.count_append, List.count_nil] at this ⊢
    omega
  · obtain ⟨o2, ho2, hp2⟩ := hp
    rw [ho] at ho2
    cases ho2
    exact hp2

theorem failedPuts_zero (w : World) : failedPuts w 0 = [] := rfl

theorem onPut_books (w : World) (ps : Option (List String)) (names : List String)
    (c k : Nat) (st : St) (h : Books w ps names c (failedPut w k) st) :
    Books w ps names c [] (unlockKey.onPut .build (w.unlock k) st) := by
  cases hr : w.unlock k with
  | error e =>
    have hf : failedPut w k = [k] := by simp [failedPut, keyFailed, hr]
    rw [hf] at h
    exact books_unlock_error w ps names c k st _ rfl (by simp [unlockErrors, hr]) h
  | ok data =>
    by_cases hl : data.locked = true
    · have hf : failedPut w k = [k] := by simp [failedPut, keyFailed, hr, hl]
      rw [hf] at h
      have hne : st.unlocks ≠ 0 := by
        intro h0
        obtain ⟨⟨main, led, _, _, _, _, h5⟩, _, _⟩ := h
        have := h5 k
        rw [h0, failedPuts_zero] at this
        simp at this
      obtain ⟨o, ho, _, _, hplat⟩ := h.2.2
      obtain ⟨p, hp, hop⟩ := hplat.resolve_left hne
      have heq : unlockKey.onPut .build (.ok data) st
          = st.emit (.callback (some ⟨"error occurred while unlocking the " ++ p
              ++ " key: " ++ data.link⟩) .undefined) := by
        simp [unlockKey.onPut, keyCallback, hl, ho, hop, JsVal.toStr, St.emit]
      rw [heq]
      refine books_unlock_error w ps names c k st _ rfl ?_ h
      simp only [unlockErrors, hr, hl, if_true, List.mem_map]
      exact ⟨p, hp, rfl⟩
    · have hf : failedPut w k = [] := by simp [failedPut, keyFailed, hr, hl]
      rw [hf] at h
      have heq : unlockKey.onPut .build (.ok data) st = st := by
        simp [unlockKey.onPut, keyCallback, hl]
      rw [heq]
      exact h

theorem put_books (w : World) (ps : Option (List String)) (names : List String)
    (c : Nat) (url : String) (cred : Credential) (st : St)
    (hp : ∃ o, st.opts = some o ∧ ∃ p ∈ names, o.platform = .str p)
    (h : Books w ps names c [] st) :
    Books w ps names c [] (unlockKey.put w url cred .build st) := by
  have h1 := books_issue w ps names c (st.emit (.put url (.data cred))) hp
    (books_emit w ps names c [] st _ rfl h)
  unfold unlockKey.put
  by_cases hn : w.unlockNow st.unlocks = true
  · simp only [hn, if_true]
    exact onPut_books w ps names c st.unlocks _ h1
  · simp only [hn, Bool.false_eq_true, if_false]
    exact books_defer_unlock w ps names c st.unlocks _ h1

theorem unlockKey_books (w : World) (ps : Option (List String)) (names : List String)
    (st : St) (hp : ∃ o, st.opts = some o ∧ ∃ p ∈ names, o.platform = .str p)
    (h : Books w ps names 1 [] st) :
    Books w ps names 1 [] (unlockKey w (some .build) st) := by
  rcases unlockKey_cases w .build st with ⟨msg, heq⟩ | ⟨msg, url, cred, heq⟩
  · rw [heq]
    exact books_throw w ps names 1 [] st msg h
  · rw [heq]
    exact put_books w ps names 1 url cred _ hp (books_emit w ps names 1 [] st _ rfl h)

theorem mem_of_lookup (k : String) (a : Nat) (ks : List (String × Nat))
    (h : ks.lookup k = some a) : k ∈ ks.map Prod.fst := by
  induction ks with
  | nil => cases h
  | cons kc rest ih =>
    obtain ⟨k2, a2⟩ := kc
    by_cases hk : k = k2
    · subst hk
      simp
    · have : (k == k2) = false := by simpa using hk
      simp only [List.lookup, this] at h
      exact List.mem_cons_of_mem _ (ih h)

theorem assignKey_books (w : World) (ps : Option (List String)) (names : List String)
    (key : String) (st : St) (h : Books w ps names 1 [] st) :
    Books w ps names 1 [] (build.assignKey key st) ∧
    ((build.assignKey key st).thrown.isSome = true ∨
      ∃ o, (build.assignKey key st).opts = some o ∧ ∃ p ∈ names, o.platform = .str p) := by
  obtain ⟨o, ho, hps, hnames, hplat⟩ := h.2.2
  unfold build.assignKey
  simp only [ho]
  cases hl : (o.keys.getD []).lookup key with
  | none => exact ⟨books_throw w ps names 1 [] st _ h, Or.inl rfl⟩
  | some a =>
    have hkey : key ∈ names := by
      rw [← hnames]
      exact mem_of_lookup key a _ hl
    refine ⟨⟨h.1, h.2.1, _, rfl, hps, hnames, Or.inr ⟨key, hkey, rfl⟩⟩, Or.inr ⟨_, rfl, key, hkey, rfl⟩⟩

theorem forEachKey_books (w : World) (ps : Option (List String)) (names : List String)
    (l : List String) :
    ∀ st : St, Books w ps names 1 [] st → Books w ps names 1 [] (build.forEachKey w l st) := by
  induction l with
  | nil => intro st h; exact h
  | cons key rest ih =>
    intro st h
    have h1 := assignKey_books w ps names key st h
    simp only [build.forEachKey]
    by_cases ht1 : (build.assignKey key st).thrown.isSome = true
    · rw [if_pos ht1]
      exact h1.1
    · rw [if_neg ht1]
      have h2 := unlockKey_books w ps names _ (h1.2.resolve_left ht1) h1.1
      by_cases ht2 : (unlockKey w (some .build) (build.assignKey key st)).thrown.isSome = true
      · rw [if_pos ht2]
        exact h2
      · rw [if_neg ht2]
        exact ih _ h2

theorem unlockKeys_books (w : World) (ps : Option (List String)) (names : List String)
    (st : St) (h : Books w ps names 1 [] st) :
    Books w ps names 1 [] (build.unlockKeys w st) := by
  unfold build.unlockKeys
  split
  · exact h
  · exact forEachKey_books w ps names _ st h

theorem thrown_none_of_not (st : St) (h : ¬ st.thrown.isSome = true) : st.thrown = none := by
  cases hs : st.thrown with
  | none => rfl
  | some m => rw [hs] at h; exact absurd rfl h

theorem onConfig_books (w : World) (ps : Option (List String)) (names : List String)
    (filename : String) (st : St) (hth : st.thrown = none) (h : Books w ps names 1 [] st) :
    Books w ps names 0 [] (build.onConfig w filename w.config st) := by
  cases hc : w.config with
  | error e =>
    exact books_outcome w ps names [] st _ rfl (Or.inr (Or.inl ⟨e, hc, rfl⟩)) hth h
  | ok id =>
    simp only [build.onConfig]
    have h1 := unlockKeys_books w ps names st h
    by_cases ht : (build.unlockKeys w st).thrown.isSome = true
    · rw [if_pos ht]
      exact books_of_thrown w ps names 1 0 [] _ ht h1
    · rw [if_neg ht]
      refine books_defer w ps names [] _ _ rfl trivial ?_
        (books_emit w ps names 1 [] _ _ rfl (books_emit w ps names 1 [] _ _ rfl h1))
      exact thrown_none_of_not _ ht

theorem onCompress_books (w : World) (ps : Option (List String)) (names : List String)
    (st : St) (hth : st.thrown = none) (h : Books w ps names 1 [] st) :
    Books w ps names 0 [] (build.onCompress w.compress st) := by
  cases hc : w.compress with
  | error e =>
    exact books_outcome w ps names [] st _ rfl (Or.inl ⟨e, hc, rfl⟩) hth h
  | ok filename =>
    exact books_defer w ps names [] _ _ rfl trivial hth (books_emit w ps names 1 [] _ _ rfl h)

theorem waitForComplete_books (w : World) (ps : Option (List String)) (names : List String)
    (o : PollOptions) (st : St) (ho : o.platforms = ps) (hth : st.thrown = none)
    (h : Books w ps names 1 [] st) :
    Books w ps names 0 [] (waitForComplete (some o) (some .build) st) := by
  rcases waitForComplete_some o .build st with ⟨msg, heq⟩ | heq
  · rw [heq]
    exact books_throw w ps names 0 [] st msg h
  · rw [heq]
    refine books_congr w ps names 0 []
      ((st.emit (.get ("/apps/" ++ o.id.toStr))).defer (.get st.gets o .build)) _
      rfl rfl rfl rfl rfl ?_
    exact books_defer w ps names [] _ _ rfl ⟨rfl, ho⟩ hth (books_emit w ps names 1 [] _ _ rfl h)

theorem pollOutcome_isCallback (o : PollOptions) (r : Except Err AppRecord) :
    (pollOutcome o r).isCallback = true := by
  cases r with
  | error e => rfl
  | ok data =>
    simp only [pollOutcome]
    split <;> rfl

theorem onGet_books (w : World) (ps : Option (List String)) (names : List String)
    (k : Nat) (o : PollOptions) (st : St) (ho : o.platforms = ps) (hth : st.thrown = none)
    (h : Books w ps names 1 [] st) :
    Books w ps names 0 [] (waitForComplete.onGet o .build (w.get k) st) := by
  by_cases ht : isTerminal o (w.get k) = true
  · rw [onGet_terminal o .build (w.get k) st ht]
    exact books_outcome w ps names [] st _ (pollOutcome_isCallback o _)
      (Or.inr (Or.inr (Or.inr ⟨k, o, ho, ht, rfl⟩))) hth h
  · rw [onGet_waiting o .build (w.get k) st (by simpa using ht)]
    exact books_defer w ps names [] _ _ rfl ⟨rfl, ho⟩ hth (books_emit w ps names 1 [] _ _ rfl h)

theorem onUpload_books (w : World) (ps : Option (List String)) (names : List String)
    (filename : String) (id : JsVal) (st : St) (hth : st.thrown = none)
    (h : Books w ps names 1 [] st) :
    Books w ps names 0 [] (build.onUpload filename id w.upload st) := by
  obtain ⟨o, ho, hps, _, _⟩ := h.2.2
  cases hu : w.upload with
  | some e =>
    exact books_outcome w ps names [] _ _ rfl (Or.inr (Or.inr (Or.inl ⟨e, hu, rfl⟩))) hth
      (books_emit w ps names 1 [] _ _ rfl h)
  | none =>
    have heq : build.onUpload filename id none st
        = waitForComplete (some { id := id, api := o.api, platforms := o.platforms })
            (some .build) ((st.emit (.cleanup filename)).emit (.log "building the app...")) := by
      simp [build.onUpload, St.emit, ho]
    rw [heq]
    exact waitForComplete_books w ps names _ _ hps hth
      (books_emit w ps names 1 [] _ _ rfl (books_emit w ps names 1 [] _ _ rfl h))

theorem books_erase (w : World) (ps : Option (List String)) (names : List String)
    (st : St) (i : Nat) (t : Task) (hget : st.pending[i]? = some t)
    (h : Books w ps names 0 [] st) (hth : st.thrown = none) :
    Books w ps names (if t.isUnlock then 0 else 1) (t.failed w)
      { st with pending := st.pending.eraseIdx i } := by
  obtain ⟨⟨main, led, h1, h2, h3, h4, h5⟩, hs1, hs2⟩ := h
  refine ⟨⟨main, led, h1, h2, h3, ?_, fun k => ?_⟩,
    fun t2 ht2 => hs1 t2 (List.mem_of_mem_eraseIdx ht2), hs2⟩
  · have hsum : (st.pending.map fun t => if t.isUnlock then 0 else 1).sum
        = ((st.pending.eraseIdx i).map fun t => if t.isUnlock then 0 else 1).sum
          + (if t.isUnlock then 0 else 1) :=
      sum_eraseIdx (fun t => if t.isUnlock then 0 else 1) st.pending i t hget
    simp only [hth, Option.isSome_none, Bool.false_eq_true, if_false, mainCount] at h4 ⊢
    rw [hsum] at h4
    by_cases hu : t.isUnlock = true
    · rw [if_pos hu] at h4 ⊢
      omega
    · rw [if_neg hu] at h4 ⊢
      omega
  · have hsum : (st.pending.map fun t => (t.failed w).count k).sum
        = ((st.pending.eraseIdx i).map fun t => (t.failed w).count k).sum
          + (t.failed w).count k :=
      sum_eraseIdx (fun t => (t.failed w).count k) st.pending i t hget
    have := h5 k
    simp only [pendingFailed, List.count_flatten, List.map_map, List.count_nil,
      Function.comp_def] at this ⊢
    rw [hsum] at this
    omega

theorem deliver_books (w : World) (ps : Option (List String)) (names : List String)
    (st : St) (i : Nat) (t : Task) (hget : st.pending[i]? = some t)
    (h : Books w ps names 0 [] st) (hth : st.thrown = none) :
    Books w ps names 0 [] (deliver w t { st with pending := st.pending.eraseIdx i }) := by
  have hb : t.ofBuild ps := h.2.1 t (List.getElem?_mem hget)
  have h1 := books_erase w ps names st i t hget h hth
  cases t with
  | compress => exact onCompress_books w ps names _ hth h1
  | configLoad filename => exact onConfig_books w ps names filename _ hth h1
  | unlock k cb =>
    have hcb : cb = .build := hb
    subst hcb
    exact onPut_books w ps names 0 k _ h1
  | upload filename id => exact onUpload_books w ps names filename id _ hth h1
  | get k o cb =>
    obtain ⟨hcb, ho⟩ := hb
    subst hcb
    exact onGet_books w ps names k o _ ho hth h1
  | timer o cb =>
    obtain ⟨hcb, ho⟩ := hb
    subst hcb
    exact waitForComplete_books w ps names o _ ho hth h1

theorem step_books (w : World) (ps : Option (List String)) (names : List String)
    (st : St) (c : Nat) (h : Books w ps names 0 [] st) :
    Books w ps names 0 [] (step w st c) := by
  cases hth : st.thrown with
  | some m => rw [step_thrown w st c (by simp [hth])]; exact h
  | none =>
    cases hget : st.pending[c % st.pending.length]? with
    | none => rw [step_none w st c hget]; exact h
    | some t =>
      rw [step_deliver w st c t hth hget]
      exact deliver_books w ps names st _ t hget h hth

theorem run_books (w : World) (ps : Option (List String)) (names : List String)
    (sched : List Nat) :
    ∀ st : St, Books w ps names 0 [] st → Books w ps names 0 [] (run w sched st) := by
  induction sched with
  | nil => intro st h; exact h
  | cons c rest ih => intro st h; exact ih _ (step_books w ps names st c h)

theorem init_books (w : World) (o : Options) :
    Books w o.platforms (keyNames o) 1 [] (St.init (some o)) := by
  refine ⟨⟨[], [], fun ev => rfl, fun ev h => absurd h (List.not_mem_nil _),
    fun p h => absurd h (List.not_mem_nil _), rfl, fun k => rfl⟩,
    fun t h => absurd h (List.not_mem_nil _), o, rfl, rfl, rfl, Or.inl rfl⟩

theorem build_books (w : World) (o : Options) :
    Books w o.platforms (keyNames o) 0 [] (build w (some o) true) := by
  rcases build_cases w (some o) true with ⟨msg, heq⟩ | heq
  · rw [heq]
    exact books_throw w _ _ 0 [] _ msg (init_books w o)
  · rw [heq]
    exact books_defer w _ _ [] _ _ rfl trivial rfl
      (books_emit w _ _ 1 [] _ _ rfl (books_emit w _ _ 1 [] _ _ rfl (init_books w o)))

/-- C1 (amended): at every point of every run of the build function, whatever the request
and whatever the collaborators reply, the invocations of the completion callback made so
far are, in some order, those of a list `main` and those of a list `led`. Each invocation
of `main` carries an outcome of the build: an error alone (that of `zip.compress`, of
`config.local.load`, of the upload put or of a status query, unchanged, or the error built
for the status `error`), or `null` and the app record of a terminal status query. There is
exactly one of them unless a reply of the main sequence is still outstanding or an
exception was thrown, and none in these two cases. Each invocation of `led` carries the
error of the failed key-unlock put it is listed with: the error of the put unchanged, or
the error built from a key name of the request and the link of a response with `locked`.
Every key-unlock put issued so far that failed or reported `locked` is listed in `led`
exactly once, or its reply is still outstanding; a request without `keys` has none. So
when nothing is outstanding and no exception was thrown, the callback has been invoked
once and once more for every key-unlock put that failed or reported `locked`. And the
run does end: when the status query number `m` (counted from 0) gives a terminal result
for the platforms of the request, after `2 * m + 4` turns and one more for every key
nothing is outstanding, or an exception was thrown. -/
theorem build_callback_count (w : World) (o : Options) (sched : List Nat) :
    (∃ (main : List Event) (led : List (Nat × Event)),
      ((buildRun w o sched).trace.filter Event.isCallback).Perm (main ++ led.map Prod.snd) ∧
      main.length + mainCount (buildRun w o sched).pending
        + (if (buildRun w o sched).thrown.isSome then 1 else 0) = 1 ∧
      (∀ ev ∈ main, Outcome w o.platforms ev) ∧
      (led.map Prod.fst ++ pendingFailed w (buildRun w o sched).pending).Perm
        (failedPuts w (unlockPuts (buildRun w o sched).trace)) ∧
      (∀ p ∈ led, p.2 ∈ unlockErrors w (keyNames o) p.1) ∧
      (o.keys = none → led = [])) ∧
    ((buildRun w o sched).pending = [] → (buildRun w o sched).thrown = none →
      ((buildRun w o sched).trace.filter Event.isCallback).length
        = 1 + (failedPuts w (unlockPuts (buildRun w o sched).trace)).length) ∧
    (∀ m, (∀ po : PollOptions, po.platforms = o.platforms →
        isTerminal po (w.get m) = true) →
      2 * m + 4 + (o.keys.getD []).length ≤ sched.length →
      (buildRun w o sched).pending = [] ∨ (buildRun w o sched).thrown.isSome = true) := by
  have hb : Books w o.platforms (keyNames o) 0 [] (buildRun w o sched) :=
    run_books w o.platforms (keyNames o) sched _ (build_books w o)
  obtain ⟨⟨main, led, h1, h2, h3, h4, h5⟩, _, _⟩ := hb
  have hp1 : ((buildRun w o sched).trace.filter Event.isCallback).Perm
      (main ++ led.map Prod.snd) :=
    List.perm_iff_count.mpr fun ev => by rw [List.count_append]; exact h1 ev
  have hp2 : (led.map Prod.fst ++ pendingFailed w (buildRun w o sched).pending).Perm
      (failedPuts w (unlockPuts (buildRun w o sched).trace)) := by
    refine List.perm_iff_count.mpr fun k => ?_
    have := h5 k
    rw [← synced_buildRun, List.count_append]
    simpa using this
  refine ⟨⟨main, led, hp1, h4, h2, hp2, h3, fun hk => ?_⟩, fun hdone hok => ?_,
    fun m hterm hlen => build_run_ends w o m sched hterm hlen⟩
  rotate_left
  · have hl1 := hp1.length_eq
    have hl2 := hp2.length_eq
    rw [hdone, hok] at h4
    rw [hdone] at hl2
    simp only [List.length_append, List.length_map, pendingFailed, List.map_nil,
      List.flatten_nil, List.length_nil, mainCount, List.sum_nil, Option.isSome_none,
      Bool.false_eq_true, if_false] at hl1 hl2 h4
    omega
  · have hkeep : Keeps (St.init (some o)) (buildRun w o sched) := by
      unfold buildRun
      have hk1 := build_keeps w (some o) true
      exact hk1.andThen (run_keeps_of_no_keys w sched _ (by rw [hk1.1]; simp [St.init, hk]))
    cases led with
    | nil => rfl
    | cons p rest =>
      have := h5 p.1
      rw [hkeep.2] at this
      simp [St.init, failedPuts] at this

theorem build_callback_count_witness :
    (∃ (main : List Event) (led : List (Nat × Event)),
      ((buildRun stillLocked iosKeyRequest [0, 0, 0, 0, 0]).trace.filter
        Event.isCallback).Perm (main ++ led.map Prod.snd) ∧
      main.length + mainCount (buildRun stillLocked iosKeyRequest [0, 0, 0, 0, 0]).pending
        + (if (buildRun stillLocked iosKeyRequest [0, 0, 0, 0, 0]).thrown.isSome
            then 1 else 0) = 1 ∧
      (∀ ev ∈ main, Outcome stillLocked iosKeyRequest.platforms ev) ∧
      (led.map Prod.fst
          ++ pendingFailed stillLocked (buildRun stillLocked iosKeyRequest [0, 0, 0, 0, 0]).pending).Perm
        (failedPuts stillLocked
          (unlockPuts (buildRun stillLocked iosKeyRequest [0, 0, 0, 0, 0]).trace)) ∧
      (∀ p ∈ led, p.2 ∈ unlockErrors stillLocked (keyNames iosKeyRequest) p.1) ∧
      (iosKeyRequest.keys = none → led = [])) ∧
    (buildRun stillLocked iosKeyRequest [0, 0, 0, 0, 0]).pending = [] ∧
    ((buildRun stillLocked iosKeyRequest [0, 0, 0, 0, 0]).trace.filter
      Event.isCallback).length = 2 :=
  have h := build_callback_count stillLocked iosKeyRequest [0, 0, 0, 0, 0]
  have hdone := (h.2.2 0
    (fun po hpo => by simp [isTerminal, watchedStatus, hpo, stillLocked, iosStatus, strOf,
      iosKeyRequest])
    (by decide)).resolve_right (by decide)
  ⟨h.1, hdone, (h.2.1 hdone (by decide)).trans (by decide)⟩

/-- C1 (as stated, refuted): with the `ios` key in the request and its unlock put refused,
the run ends without an exception, nothing is outstanding, and the callback has been
invoked twice: with the final app record, and with the error of the unlock put. And when
the config lookup gives the app id 0, `waitForComplete` throws in the callback of the
upload put: the run ends with nothing outstanding and the callback never invoked. -/
theorem unlock_failure_calls_back_again :
    (buildRun unlockRefused iosKeyRequest [0, 0, 1, 1, 0]).pending = [] ∧
    (buildRun unlockRefused iosKeyRequest [0, 0, 1, 1, 0]).thrown = none ∧
    (buildRun unlockRefused iosKeyRequest [0, 0, 1, 1, 0]).trace.filter Event.isCallback
      = [.callback none (.app (iosStatus "complete")),
          .callback (some ⟨"401"⟩) .undefined] ∧
    (buildRun zeroAppId iosRequest [0, 0, 0]).pending = [] ∧
    (buildRun zeroAppId iosRequest [0, 0, 0]).thrown = some "missing options.id parameter" ∧
    (buildRun zeroAppId iosRequest [0, 0, 0]).trace.filter Event.isCallback = [] := by
  decide

end PhonegapBuild
